import Mathlib

/-
Verification of the SQL File Watcher (sql_file_watcher.py).

The development shallowly embeds the statement splitter
`SQLFileWatcher._split_sql_statements` (lines 122-222 of the source), the
transactional execution loop `_execute_sql_file` (lines 224-262), and the
folder processing loop `_process_folder` (lines 264-302) as executable Lean
functions, and proves the specification claims about them.

Strings are modelled as `List Char`; Python `str.strip()` is modelled with
`Char.isWhitespace` (the claims only involve ASCII whitespace).
-/

set_option autoImplicit false

/-- The scan state of `_split_sql_statements`: the five context flags
(source lines 135-139), the statement buffer `current_statement`
(line 134) and the accumulated output `statements` (line 133). -/
@[ext]
structure SplitState where
  in_single_quote : Bool
  in_double_quote : Bool
  in_backtick : Bool
  in_single_line_comment : Bool
  in_multi_line_comment : Bool
  current_statement : List Char
  statements : List (List Char)
  deriving DecidableEq, Repr

/-- The initial scan state (source lines 133-139). -/
def initialState : SplitState :=
  ⟨false, false, false, false, false, [], []⟩

/-- Whitespace test standing for Python `str.strip()`'s notion of space. -/
def isSpace (c : Char) : Bool :=
  c.isWhitespace

/-- Python `str.strip()`: drop whitespace from both ends. -/
def trim (l : List Char) : List Char :=
  ((l.dropWhile isSpace).reverse.dropWhile isSpace).reverse

/-- The backquote character (ASCII 96). -/
def backquote : Char :=
  Char.ofNat 96

/-- None of the three quote flags is set (the shared guard of source
lines 149, 156, 182, 189, 195, 199). -/
def noQuote (s : SplitState) : Bool :=
  !s.in_single_quote && !s.in_double_quote && !s.in_backtick

/-- Append one character to the statement buffer
(`current_statement.append(char)`). -/
def appendChar (s : SplitState) (c : Char) : SplitState :=
  { s with current_statement := s.current_statement ++ [c] }

/-- The quote/semicolon dispatch of source lines 181-206, reached when the
scan is in neither kind of comment.  `prev` is `line[i-1]` when `i > 0`
and `none` at the start of a line. -/
def handleChar (s : SplitState) (prev : Option Char) (c : Char) : SplitState :=
  if c = '\'' ∧ s.in_double_quote = false ∧ s.in_backtick = false then
    if prev = some '\\' then appendChar s c
    else appendChar { s with in_single_quote := !s.in_single_quote } c
  else if c = '"' ∧ s.in_single_quote = false ∧ s.in_backtick = false then
    if prev = some '\\' then appendChar s c
    else appendChar { s with in_double_quote := !s.in_double_quote } c
  else if c = backquote ∧ s.in_single_quote = false ∧ s.in_double_quote = false then
    appendChar { s with in_backtick := !s.in_backtick } c
  else if c = ';' ∧ s.in_single_quote = false ∧ s.in_double_quote = false ∧
      s.in_backtick = false then
    { s with current_statement := [],
             statements :=
               if trim s.current_statement = [] then s.statements
               else s.statements ++ [trim s.current_statement] }
  else appendChar s c

/-- One iteration of the inner `while i < len(line)` loop (source lines
145-208), given the current character `c` and the rest of the line `t`.
Returns the new state, the new previous character, and the rest of the
line still to scan (`[]` when the loop `break`s at a `--`). -/
def scanStep (s : SplitState) (prev : Option Char) (c : Char) (t : List Char) :
    SplitState × Option Char × List Char :=
  if noQuote s = true ∧ s.in_multi_line_comment = false ∧ c = '-' ∧
      t.head? = some '-' then
    ({ s with in_single_line_comment := true,
              current_statement := s.current_statement ++ (c :: t) }, some c, [])
  else if noQuote s = true ∧ s.in_single_line_comment = false ∧ c = '/' ∧
      t.head? = some '*' then
    ({ s with in_multi_line_comment := true,
              current_statement := s.current_statement ++ [c, '*'] }, some '*', t.tail)
  else if s.in_multi_line_comment = true then
    if c = '*' ∧ t.head? = some '/' then
      ({ s with in_multi_line_comment := false,
                current_statement := s.current_statement ++ [c, '/'] }, some '/', t.tail)
    else (appendChar s c, some c, t)
  else if s.in_single_line_comment = true then (appendChar s c, some c, t)
  else (handleChar s prev c, some c, t)

/-- The inner `while` loop of source lines 145-208 over one line. -/
def scanLine (s : SplitState) (prev : Option Char) : List Char → SplitState
  | [] => s
  | [c] =>
    if s.in_multi_line_comment = true then appendChar s c
    else if s.in_single_line_comment = true then appendChar s c
    else handleChar s prev c
  | c1 :: c2 :: t =>
    if noQuote s = true ∧ s.in_multi_line_comment = false ∧ c1 = '-' ∧ c2 = '-' then
      { s with in_single_line_comment := true,
               current_statement := s.current_statement ++ (c1 :: c2 :: t) }
    else if noQuote s = true ∧ s.in_single_line_comment = false ∧ c1 = '/' ∧
        c2 = '*' then
      scanLine { s with in_multi_line_comment := true,
                        current_statement := s.current_statement ++ [c1, c2] }
        (some c2) t
    else if s.in_multi_line_comment = true then
      if c1 = '*' ∧ c2 = '/' then
        scanLine { s with in_multi_line_comment := false,
                          current_statement := s.current_statement ++ [c1, c2] }
          (some c2) t
      else scanLine (appendChar s c1) (some c1) (c2 :: t)
    else if s.in_single_line_comment = true then
      scanLine (appendChar s c1) (some c1) (c2 :: t)
    else scanLine (handleChar s prev c1) (some c1) (c2 :: t)

/-- End-of-line bookkeeping (source lines 210-215): the line-comment flag
is cleared and a newline is appended to the buffer. -/
def endOfLine (s : SplitState) : SplitState :=
  { s with in_single_line_comment := false,
           current_statement := s.current_statement ++ ['\n'] }

/-- One iteration of the `for line in lines` loop (source lines 143-215). -/
def processLine (s : SplitState) (line : List Char) : SplitState :=
  endOfLine (scanLine s none line)

/-- The `for line in lines` loop. -/
def processLines (s : SplitState) : List (List Char) → SplitState
  | [] => s
  | l :: ls => processLines (processLine s l) ls

/-- Python `text.split(sep)` for a one-character separator: the list of
(possibly empty) pieces between occurrences of `sep`. -/
def splitOnChar (sep : Char) : List Char → List (List Char)
  | [] => [[]]
  | c :: t =>
    if c = sep then [] :: splitOnChar sep t
    else
      match splitOnChar sep t with
      | [] => [[c]]
      | l :: ls => (c :: l) :: ls

/-- `sql_content.split('\n')` (source line 141). -/
def splitLines (content : List Char) : List (List Char) :=
  splitOnChar '\n' content

/-- The final-remainder handling of source lines 217-220. -/
def finishSplit (s : SplitState) : List (List Char) :=
  if trim s.current_statement = [] then s.statements
  else s.statements ++ [trim s.current_statement]

/-- `SQLFileWatcher._split_sql_statements` (source lines 122-222) on a
character list. -/
def split_sql_statements (content : List Char) : List (List Char) :=
  finishSplit (processLines initialState (splitLines content))

/-- `_split_sql_statements` on a `String`. -/
def splitSqlStatements (content : String) : List String :=
  (split_sql_statements content.data).map (fun l => String.mk l)

/-- Modelled from the spec: the naive fallback strategy, "split the whole
text on `;`, trim each piece of surrounding whitespace, and drop empty
pieces, preserving order" (spec section 8, first testable property). -/
def naiveSplit (content : List Char) : List (List Char) :=
  ((splitOnChar ';' content).map trim).filter (fun l => !l.isEmpty)

/-- `hasPair c1 c2 l` holds when characters `c1` and `c2` occur adjacently
(in that order) somewhere in `l`. -/
def hasPair (c1 c2 : Char) : List Char → Bool
  | a :: b :: t => (decide (a = c1) && decide (b = c2)) || hasPair c1 c2 (b :: t)
  | _ => false

/-- The hypothesis of the refinement claim: a script with no quote
characters and no comment markers. -/
def PlainOk (content : List Char) : Prop :=
  (∀ c ∈ content, c ≠ '\'' ∧ c ≠ '"' ∧ c ≠ backquote) ∧
    hasPair '-' '-' content = false ∧ hasPair '/' '*' content = false

instance (content : List Char) : Decidable (PlainOk content) := by
  unfold PlainOk; infer_instance

/-- A reference scan for quote-free, comment-free text: accumulate into a
buffer, splitting at every semicolon (trim, drop empties). -/
def plainScan (buf : List Char) (stmts : List (List Char)) :
    List Char → List Char × List (List Char)
  | [] => (buf, stmts)
  | c :: t =>
    if c = ';' then
      plainScan [] (if trim buf = [] then stmts else stmts ++ [trim buf]) t
    else plainScan (buf ++ [c]) stmts t

mutual

/-- Modelled from the spec: a text "consisting solely of whitespace and/or
SQL comments (line or block comments)".  The `Bool` mode flags an open
block comment; an unterminated block comment is not counted as a comment. -/
def onlyWsCommentsMode : Bool → List Char → Bool
  | false, [] => true
  | true, [] => false
  | false, c :: t =>
    if isSpace c then onlyWsCommentsMode false t
    else if c = '-' then
      match t with
      | '-' :: r => onlyWsCommentsLine r
      | _ => false
    else if c = '/' then
      match t with
      | '*' :: r => onlyWsCommentsMode true r
      | _ => false
    else false
  | true, '*' :: '/' :: r => onlyWsCommentsMode false r
  | true, _ :: t => onlyWsCommentsMode true t

/-- Inside a line comment: skip to the end of the line. -/
def onlyWsCommentsLine : List Char → Bool
  | [] => true
  | c :: t => if c = '\n' then onlyWsCommentsMode false t else onlyWsCommentsLine t

end

/-- A text consisting solely of whitespace and SQL comments. -/
def isOnlyWhitespaceAndComments (l : List Char) : Bool :=
  onlyWsCommentsMode false l

example : isOnlyWhitespaceAndComments ("-- c".data) = true := by decide

example : isOnlyWhitespaceAndComments (" /* x;y */ \n -- z".data) = true := by
  decide

example : isOnlyWhitespaceAndComments ("SELECT 1".data) = false := by decide

/-- An action performed on the database connection, as seen by the
connection object in `_execute_sql_file` (source lines 242-262). -/
inductive DbAction where
  | exec : String → DbAction
  | rollback : DbAction
  | commit : DbAction
  deriving DecidableEq, Repr

/-- The statement loop of `_execute_sql_file` (source lines 244-254):
execute each statement in order; on the first error roll back and raise;
after a fully successful loop, commit.  `execOk` is the database oracle
deciding whether a statement executes without error.  Returns the actions
performed and whether the loop completed without raising. -/
def run_statements (execOk : String → Bool) : List String → List DbAction × Bool
  | [] => ([DbAction.commit], true)
  | st :: rest =>
    if execOk st then
      let r := run_statements execOk rest
      (DbAction.exec st :: r.1, r.2)
    else ([DbAction.exec st, DbAction.rollback], false)

/-- `_execute_sql_file` (source lines 224-262) on an already-split
statement list: the outer `except` block rolls back once more on failure
and swallows the exception. -/
def execute_statements (execOk : String → Bool) (stmts : List String) :
    List DbAction × Bool :=
  let r := run_statements execOk stmts
  if r.2 then r else (r.1 ++ [DbAction.rollback], false)

/-- `_execute_sql_file` on a file's raw content. -/
def execute_sql_file (execOk : String → Bool) (content : String) :
    List DbAction × Bool :=
  execute_statements execOk (splitSqlStatements content)

/-- The connection configuration of `_connect_to_database`
(source lines 84-92), restricted to the transaction-relevant fields. -/
structure ConnectConfig where
  autocommit : Bool
  connection_timeout : Nat
  deriving DecidableEq, Repr

/-- Source lines 90-91: `'autocommit': False, 'connection_timeout': 30`. -/
def connect_config : ConnectConfig :=
  { autocommit := false, connection_timeout := 30 }

/-- `sorted(...)` over discovered files (source line 281), keyed on the
file path (first component). -/
def sortByPath (files : List (String × String)) : List (String × String) :=
  files.insertionSort (fun a b => a.1 ≤ b.1)

/-- The per-file loop of `_process_folder` (source lines 296-297) applied
to the discovered files: every file is attempted in sorted path order;
`_execute_sql_file` never propagates an exception (source lines 259-262),
so one file's failure cannot stop the loop. -/
def process_folder (execOk : String → Bool) (files : List (String × String)) :
    List (String × (List DbAction × Bool)) :=
  (sortByPath files).map (fun pf => (pf.1, execute_sql_file execOk pf.2))

/-- Source line 275: `max_wait = 30`. -/
def max_wait : Nat := 30

/-- Source line 276: `wait_interval = 2`. -/
def wait_interval : Nat := 2

/-- The file-appearance wait loop of `_process_folder` (source lines
277-288): starting from `elapsed`, poll while `elapsed < m`; return the
elapsed time at which files were first seen, or `none` on timeout.
`hasFiles e` is the filesystem oracle at elapsed time `e`. -/
def wait_loop (hasFiles : Nat → Bool) (m elapsed : Nat) : Option Nat :=
  if _h : elapsed < m then
    if hasFiles elapsed then some elapsed
    else wait_loop hasFiles m (elapsed + wait_interval)
  else none
termination_by m - elapsed
decreasing_by simp only [wait_interval]; omega

/-- The number of times the wait loop polls the filesystem. -/
def wait_polls (hasFiles : Nat → Bool) (m elapsed : Nat) : Nat :=
  if _h : elapsed < m then
    if hasFiles elapsed then 1
    else 1 + wait_polls hasFiles m (elapsed + wait_interval)
  else 0
termination_by m - elapsed
decreasing_by simp only [wait_interval]; omega

/-- `_process_folder` (source lines 264-302): wait for files to appear;
on timeout log a warning and return (`none`); otherwise process the folder
contents as discovered at that time. -/
def process_folder_wait (hasFiles : Nat → Bool)
    (filesAt : Nat → List (String × String)) (execOk : String → Bool) :
    Option (List (String × (List DbAction × Bool))) :=
  match wait_loop hasFiles max_wait 0 with
  | none => none
  | some t => some (process_folder execOk (filesAt t))

/-- The flat scan: the character loop of `_split_sql_statements` on text
with no comment markers, where every character goes through the
quote/semicolon dispatch and newlines are ordinary characters. -/
def scanFlat (s : SplitState) (prev : Option Char) : List Char → SplitState
  | [] => s
  | c :: t => scanFlat (handleChar s prev c) (some c) t

/-- The previous-character value after scanning `u` starting from `p`. -/
def lastPrevOpt (u : List Char) (p : Option Char) : Option Char :=
  match u.getLast? with
  | some c => some c
  | none => p

/-- A script with no comment markers: no adjacent `--` and no adjacent
`/*` anywhere (quote characters are allowed). -/
def MarkerFree (content : List Char) : Prop :=
  hasPair '-' '-' content = false ∧ hasPair '/' '*' content = false

instance (content : List Char) : Decidable (MarkerFree content) := by
  unfold MarkerFree; infer_instance

/-- A piece whose re-scan from the fresh state accumulates exactly the
piece and emits nothing. -/
def PieceBuf (p : List Char) : Prop :=
  (scanFlat initialState none p).current_statement = p ∧
    (scanFlat initialState none p).statements = []

/-- A piece whose re-scan from the fresh state ends back in the fresh
state with exactly the piece in the buffer. -/
def PieceFF (p : List Char) : Prop :=
  scanFlat initialState none p = { initialState with current_statement := p }

/-- The buffer's last character agrees with the previous-character value
(or the buffer is empty right after a split or at the start). -/
def PrevLink (s : SplitState) (prev : Option Char) : Prop :=
  s.current_statement.getLast? = prev ∨
    (s.current_statement = [] ∧ (prev = none ∨ prev = some ';'))

/-- Re-scanning the current buffer from the fresh state reproduces the
current quote flags, accumulates exactly the buffer and emits nothing;
the buffer contains no comment marker. -/
def BufInv (s : SplitState) : Prop :=
  scanFlat initialState none s.current_statement =
    ⟨s.in_single_quote, s.in_double_quote, s.in_backtick, false, false,
      s.current_statement, []⟩ ∧
    hasPair '-' '-' s.current_statement = false ∧
    hasPair '/' '*' s.current_statement = false

/-- A marker-free piece whose re-scan returns to the fresh state. -/
def GoodPiece (p : List Char) : Prop :=
  PieceFF p ∧ hasPair '-' '-' p = false ∧ hasPair '/' '*' p = false

/-- All collected statements are good pieces. -/
def GoodStmts (s : SplitState) : Prop :=
  ∀ p ∈ s.statements, GoodPiece p

example : splitSqlStatements "SELECT 1;SELECT 2;" = ["SELECT 1", "SELECT 2"] := by
  decide

example : splitSqlStatements "INSERT INTO t VALUES ('a;b')" =
    ["INSERT INTO t VALUES ('a;b')"] := by decide

example : splitSqlStatements "/* line1;\nline2 */\nSELECT 2;" =
    ["/* line1;\nline2 */\nSELECT 2"] := by decide

example : splitSqlStatements "-- c\n;SELECT 1;" = ["-- c", "SELECT 1"] := by
  decide

example : splitSqlStatements "a --x\n;b;" = ["a --x", "b"] := by decide

example : splitSqlStatements "a --x;b" = ["a --x;b"] := by decide

example : splitSqlStatements "SELECT 'a\\\\';" = ["SELECT 'a\\\\';"] := by decide

example : splitSqlStatements "   \n  ;  ;" = [] := by decide

/-! ### Lemmas about `trim` -/

theorem trim_eq_rdropWhile (l : List Char) :
    trim l = List.rdropWhile isSpace (List.dropWhile isSpace l) := rfl

theorem trim_nil : trim [] = [] := rfl

theorem dropWhile_eq_self_of_prefix (p : Char → Bool) {x y : List Char}
    (h : List.dropWhile p x = x) (hp : y <+: x) : List.dropWhile p y = y := by
  obtain ⟨t, rfl⟩ := hp
  cases y with
  | nil => rfl
  | cons a ys =>
    rw [List.cons_append, List.dropWhile_cons] at h
    rw [List.dropWhile_cons]
    by_cases hpa : p a = true
    · exfalso
      rw [if_pos hpa] at h
      have hsub := (List.dropWhile_sublist (l := ys ++ t) (p := p)).length_le
      rw [h] at hsub
      simp at hsub
    · simp [hpa]

theorem trim_idem (l : List Char) : trim (trim l) = trim l := by
  rw [trim_eq_rdropWhile, trim_eq_rdropWhile]
  have h1 : List.dropWhile isSpace (List.dropWhile isSpace l) =
      List.dropWhile isSpace l := List.dropWhile_idempotent _ _
  have h2 : List.dropWhile isSpace
      (List.rdropWhile isSpace (List.dropWhile isSpace l)) =
      List.rdropWhile isSpace (List.dropWhile isSpace l) :=
    dropWhile_eq_self_of_prefix _ h1 (List.rdropWhile_prefix _ _)
  rw [h2, List.rdropWhile_idempotent]

theorem trim_append_space {c : Char} (hc : isSpace c = true) (l : List Char) :
    trim (l ++ [c]) = trim l := by
  rw [trim_eq_rdropWhile, trim_eq_rdropWhile]
  by_cases h : List.dropWhile isSpace l = []
  · have hall : ∀ x ∈ l, isSpace x = true := List.dropWhile_eq_nil_iff.mp h
    have h2 : List.dropWhile isSpace (l ++ [c]) = [] := by
      rw [List.dropWhile_eq_nil_iff]
      intro x hx
      rcases List.mem_append.mp hx with hx | hx
      · exact hall x hx
      · simp at hx; subst hx; exact hc
    rw [h, h2]
  · have h2 : List.dropWhile isSpace (l ++ [c]) =
        List.dropWhile isSpace l ++ [c] := by
      induction l with
      | nil => simp at h
      | cons a t ih =>
        rw [List.cons_append, List.dropWhile_cons, List.dropWhile_cons]
        by_cases hpa : isSpace a = true
        · simp only [if_pos hpa]
          rw [List.dropWhile_cons, if_pos hpa] at h
          exact ih h
        · simp [hpa]
    rw [h2, List.rdropWhile_concat_pos _ _ _ hc]

theorem trim_infix_self (l : List Char) : trim l <:+: l := by
  rw [trim_eq_rdropWhile]
  exact List.IsInfix.trans
    (List.rdropWhile_prefix _ _).isInfix
    (List.dropWhile_suffix _).isInfix

theorem trim_mem {c : Char} {l : List Char} (h : c ∈ trim l) : c ∈ l :=
  (trim_infix_self l).subset h

/-! ### Lemmas about `splitOnChar` -/

theorem splitOnChar_ne_nil (sep : Char) (l : List Char) :
    splitOnChar sep l ≠ [] := by
  induction l with
  | nil => simp [splitOnChar]
  | cons c t ih =>
    rw [splitOnChar]
    by_cases h : c = sep
    · simp [h]
    · rw [if_neg h]
      cases hS : splitOnChar sep t with
      | nil => simp
      | cons l0 ls => simp

theorem splitOnChar_head_prefix (sep : Char) :
    ∀ {l l0 : List Char} {ls : List (List Char)},
      splitOnChar sep l = l0 :: ls → l0 <+: l := by
  intro l
  induction l with
  | nil => intro l0 ls h; rw [splitOnChar] at h; cases h; exact List.nil_prefix
  | cons c t ih =>
    intro l0 ls h
    rw [splitOnChar] at h
    by_cases hc : c = sep
    · rw [if_pos hc] at h; cases h; exact List.nil_prefix
    · rw [if_neg hc] at h
      cases hS : splitOnChar sep t with
      | nil => exact absurd hS (splitOnChar_ne_nil sep t)
      | cons m0 ms =>
        rw [hS] at h
        cases h
        exact List.cons_prefix_cons.mpr ⟨rfl, ih hS⟩

theorem splitOnChar_infix_of_mem (sep : Char) :
    ∀ {l p : List Char}, p ∈ splitOnChar sep l → p <:+: l := by
  intro l
  induction l with
  | nil =>
    intro p hp
    rw [splitOnChar] at hp
    simp at hp
    simp [hp]
  | cons c t ih =>
    intro p hp
    rw [splitOnChar] at hp
    by_cases hc : c = sep
    · rw [if_pos hc] at hp
      rcases List.mem_cons.mp hp with h | h
      · simp [h]
      · exact List.infix_cons (ih h)
    · rw [if_neg hc] at hp
      cases hS : splitOnChar sep t with
      | nil => exact absurd hS (splitOnChar_ne_nil sep t)
      | cons m0 ms =>
        rw [hS] at hp
        rcases List.mem_cons.mp hp with h | h
        · subst h
          exact (List.cons_prefix_cons.mpr ⟨rfl, splitOnChar_head_prefix sep hS⟩).isInfix
        · exact List.infix_cons (ih (hS ▸ List.mem_cons_of_mem m0 h))

theorem splitOnChar_join (sep : Char) (l : List Char) :
    ((splitOnChar sep l).map (fun p => p ++ [sep])).flatten = l ++ [sep] := by
  induction l with
  | nil => simp [splitOnChar]
  | cons c t ih =>
    rw [splitOnChar]
    by_cases hc : c = sep
    · subst hc; simp [ih]
    · rw [if_neg hc]
      cases hS : splitOnChar sep t with
      | nil => exact absurd hS (splitOnChar_ne_nil sep t)
      | cons m0 ms =>
        rw [hS] at ih
        simp only [List.map_cons, List.flatten_cons] at ih ⊢
        simp [List.cons_append, ih]

theorem splitOnChar_mem_not_sep (sep : Char) :
    ∀ {l p : List Char}, p ∈ splitOnChar sep l → sep ∉ p := by
  intro l
  induction l with
  | nil =>
    intro p hp
    rw [splitOnChar] at hp
    simp at hp
    simp [hp]
  | cons c t ih =>
    intro p hp
    rw [splitOnChar] at hp
    by_cases hc : c = sep
    · rw [if_pos hc] at hp
      rcases List.mem_cons.mp hp with h | h
      · simp [h]
      · exact ih h
    · rw [if_neg hc] at hp
      cases hS : splitOnChar sep t with
      | nil => exact absurd hS (splitOnChar_ne_nil sep t)
      | cons m0 ms =>
        rw [hS] at hp
        rcases List.mem_cons.mp hp with h | h
        · subst h
          intro hmem
          rcases List.mem_cons.mp hmem with h | h
          · exact hc h.symm
          · exact ih (hS ▸ List.mem_cons_self m0 ms) h
        · exact ih (hS ▸ List.mem_cons_of_mem m0 h)

theorem splitOnChar_append_char (sep c : Char) (hc : c ≠ sep) :
    ∀ l : List Char, ∃ ps q, splitOnChar sep l = ps ++ [q] ∧
      splitOnChar sep (l ++ [c]) = ps ++ [q ++ [c]] := by
  intro l
  induction l with
  | nil =>
    refine ⟨[], [], by simp [splitOnChar], ?_⟩
    simp only [List.nil_append]
    rw [splitOnChar, if_neg hc]
    simp [splitOnChar]
  | cons c' t ih =>
    obtain ⟨ps, q, h1, h2⟩ := ih
    by_cases hc' : c' = sep
    · refine ⟨[] :: ps, q, ?_, ?_⟩
      · rw [splitOnChar, if_pos hc', h1]; rfl
      · rw [List.cons_append, splitOnChar, if_pos hc', h2]; rfl
    · cases ps with
      | nil =>
        refine ⟨[], c' :: q, ?_, ?_⟩
        · rw [splitOnChar, if_neg hc', h1]; rfl
        · rw [List.cons_append, splitOnChar, if_neg hc', h2]; rfl
      | cons p0 ps' =>
        refine ⟨(c' :: p0) :: ps', q, ?_, ?_⟩
        · rw [splitOnChar, if_neg hc', h1]; rfl
        · rw [List.cons_append, splitOnChar, if_neg hc', h2]; rfl

/-! ### Lemmas about `hasPair` -/

theorem hasPair_nil (c1 c2 : Char) : hasPair c1 c2 [] = false := rfl

theorem hasPair_singleton (c1 c2 x : Char) : hasPair c1 c2 [x] = false := rfl

theorem hasPair_cons_cons (c1 c2 a b : Char) (t : List Char) :
    hasPair c1 c2 (a :: b :: t) =
      ((decide (a = c1) && decide (b = c2)) || hasPair c1 c2 (b :: t)) := rfl

theorem hasPair_of_tail {c1 c2 x : Char} {t : List Char}
    (h : hasPair c1 c2 t = true) : hasPair c1 c2 (x :: t) = true := by
  cases t with
  | nil => simp [hasPair] at h
  | cons y t' => rw [hasPair_cons_cons, h]; simp

theorem hasPair_append_right {c1 c2 : Char} {m : List Char} (t : List Char)
    (h : hasPair c1 c2 m = true) : hasPair c1 c2 (m ++ t) = true := by
  induction m with
  | nil => simp [hasPair] at h
  | cons a m' ih =>
    cases m' with
    | nil => simp [hasPair] at h
    | cons b m'' =>
      rw [hasPair_cons_cons] at h
      rw [List.cons_append, List.cons_append, hasPair_cons_cons]
      rcases Bool.or_eq_true_iff.mp h with h | h
      · simp [h]
      · have := ih h
        rw [List.cons_append] at this
        simp [this]

theorem hasPair_prepend {c1 c2 : Char} (s : List Char) {u : List Char}
    (h : hasPair c1 c2 u = true) : hasPair c1 c2 (s ++ u) = true := by
  induction s with
  | nil => simpa using h
  | cons a s' ih => exact hasPair_of_tail ih

theorem hasPair_mono {c1 c2 : Char} {m l : List Char} (hinf : m <:+: l)
    (h : hasPair c1 c2 m = true) : hasPair c1 c2 l = true := by
  obtain ⟨s, t, rfl⟩ := hinf
  simpa [List.append_assoc] using hasPair_prepend s (hasPair_append_right t h)

theorem hasPair_infix_false {c1 c2 : Char} {m l : List Char} (hinf : m <:+: l)
    (h : hasPair c1 c2 l = false) : hasPair c1 c2 m = false := by
  cases hp : hasPair c1 c2 m with
  | false => rfl
  | true => rw [hasPair_mono hinf hp] at h; exact absurd h (by simp)

theorem hasPair_cons_ne {c1 c2 x : Char} (hx : x ≠ c1) (v : List Char) :
    hasPair c1 c2 (x :: v) = hasPair c1 c2 v := by
  cases v with
  | nil => simp [hasPair]
  | cons y v' => rw [hasPair_cons_cons]; simp [hx]

theorem hasPair_append_sep {c1 c2 sep : Char} (h1 : c1 ≠ sep) (h2 : c2 ≠ sep) :
    ∀ (u v : List Char),
      hasPair c1 c2 (u ++ sep :: v) = (hasPair c1 c2 u || hasPair c1 c2 v) := by
  intro u
  induction u with
  | nil =>
    intro v
    rw [List.nil_append, hasPair_cons_ne (Ne.symm h1), hasPair_nil,
      Bool.false_or]
  | cons a u' ih =>
    intro v
    cases u' with
    | nil =>
      rw [List.cons_append, List.nil_append, hasPair_cons_cons,
        hasPair_cons_ne (Ne.symm h1), hasPair_singleton]
      simp [Ne.symm h2]
    | cons b u'' =>
      rw [List.cons_append, List.cons_append, hasPair_cons_cons,
        hasPair_cons_cons]
      rw [← List.cons_append, ih]
      simp [Bool.or_assoc]

/-! ### The splitter on quote-free, comment-free text -/

/-- `[x]` when `x` is non-empty, else `[]`. -/
def listIfNE (x : List Char) : List (List Char) := if x = [] then [] else [x]

/-- Prepend a buffer onto the first piece of a piece list. -/
def consHead (b : List Char) : List (List Char) → List (List Char)
  | [] => [b]
  | p :: ps => (b ++ p) :: ps

theorem push_trim_eq (st : List (List Char)) (b : List Char) :
    (if trim b = [] then st else st ++ [trim b]) = st ++ listIfNE (trim b) := by
  by_cases h : trim b = [] <;> simp [h, listIfNE]

theorem plainScan_append (u : List Char) :
    ∀ (v buf : List Char) (stmts : List (List Char)),
      plainScan buf stmts (u ++ v) =
        plainScan (plainScan buf stmts u).1 (plainScan buf stmts u).2 v := by
  induction u with
  | nil => intro v buf stmts; rfl
  | cons c u' ih =>
    intro v buf stmts
    rw [List.cons_append, plainScan, plainScan]
    by_cases hc : c = ';'
    · rw [if_pos hc, if_pos hc, ih]
    · rw [if_neg hc, if_neg hc, ih]

theorem plainScan_spec :
    ∀ (l buf : List Char) (stmts : List (List Char)),
      (plainScan buf stmts l).2 ++ listIfNE (trim (plainScan buf stmts l).1) =
        stmts ++ ((consHead buf (splitOnChar ';' l)).map trim).filter
          (fun x => !x.isEmpty) := by
  intro l
  induction l with
  | nil =>
    intro buf stmts
    simp only [plainScan, splitOnChar, consHead, List.append_nil, List.map_cons,
      List.map_nil, List.filter]
    by_cases h : trim buf = []
    · simp [h, listIfNE]
    · have hne : (trim buf).isEmpty = false := by
        simpa [List.isEmpty_iff] using h
      simp [h, listIfNE, hne]
  | cons c t ih =>
    intro buf stmts
    by_cases hc : c = ';'
    · subst hc
      rw [plainScan, if_pos rfl, ih, splitOnChar, if_pos rfl]
      cases hS : splitOnChar ';' t with
      | nil => exact absurd hS (splitOnChar_ne_nil _ t)
      | cons p ps =>
        rw [push_trim_eq]
        simp only [consHead, List.nil_append, List.map_cons, List.filter_cons,
          List.append_assoc]
        by_cases h : trim buf = []
        · simp [h, listIfNE]
        · have hne : (trim buf).isEmpty = false := by
            simpa [List.isEmpty_iff] using h
          simp [h, listIfNE, hne]
    · rw [plainScan, if_neg hc, ih, splitOnChar, if_neg hc]
      cases hS : splitOnChar ';' t with
      | nil => exact absurd hS (splitOnChar_ne_nil _ t)
      | cons p ps =>
        simp only [consHead, List.append_assoc, List.singleton_append]

theorem handleChar_plain (s : SplitState) (prev : Option Char) (c : Char)
    (h1 : s.in_single_quote = false) (h2 : s.in_double_quote = false)
    (h3 : s.in_backtick = false)
    (hq : c ≠ '\'' ∧ c ≠ '"' ∧ c ≠ backquote) :
    handleChar s prev c =
      { in_single_quote := false, in_double_quote := false, in_backtick := false,
        in_single_line_comment := s.in_single_line_comment,
        in_multi_line_comment := s.in_multi_line_comment,
        current_statement := (plainScan s.current_statement s.statements [c]).1,
        statements := (plainScan s.current_statement s.statements [c]).2 } := by
  obtain ⟨sq, dq, bt, slc, mlc, cs, st⟩ := s
  simp only at h1 h2 h3
  subst h1 h2 h3
  rw [handleChar]
  rw [if_neg (by simp [hq.1]), if_neg (by simp [hq.2.1]),
    if_neg (by simp [hq.2.2])]
  by_cases hc : c = ';'
  · rw [if_pos (by simp [hc]), plainScan, if_pos hc]
    rfl
  · rw [if_neg (by simp [hc]), plainScan, if_neg hc]
    rfl

theorem scanLine_plain :
    ∀ (l : List Char) (s : SplitState) (prev : Option Char),
      s.in_single_quote = false → s.in_double_quote = false →
      s.in_backtick = false → s.in_single_line_comment = false →
      s.in_multi_line_comment = false →
      (∀ c ∈ l, c ≠ '\'' ∧ c ≠ '"' ∧ c ≠ backquote) →
      hasPair '-' '-' l = false → hasPair '/' '*' l = false →
      scanLine s prev l =
        { in_single_quote := false, in_double_quote := false,
          in_backtick := false, in_single_line_comment := false,
          in_multi_line_comment := false,
          current_statement := (plainScan s.current_statement s.statements l).1,
          statements := (plainScan s.current_statement s.statements l).2 } := by
  intro l
  induction l with
  | nil =>
    intro s prev h1 h2 h3 h4 h5 _ _ _
    obtain ⟨sq, dq, bt, slc, mlc, cs, st⟩ := s
    simp only at h1 h2 h3 h4 h5
    subst h1 h2 h3 h4 h5
    rfl
  | cons c1 t ih =>
    intro s prev h1 h2 h3 h4 h5 hq hd hs
    have hq1 : c1 ≠ '\'' ∧ c1 ≠ '"' ∧ c1 ≠ backquote :=
      hq c1 (List.mem_cons_self c1 t)
    cases t with
    | nil =>
      rw [scanLine, if_neg (by rw [h5]; simp), if_neg (by rw [h4]; simp)]
      exact handleChar_plain s prev c1 h1 h2 h3 hq1 ▸ by rw [h4, h5]
    | cons c2 t' =>
      have hd' : ¬(c1 = '-' ∧ c2 = '-') := by
        rw [hasPair_cons_cons] at hd
        intro ⟨ha, hb⟩
        simp [ha, hb] at hd
      have hs' : ¬(c1 = '/' ∧ c2 = '*') := by
        rw [hasPair_cons_cons] at hs
        intro ⟨ha, hb⟩
        simp [ha, hb] at hs
      have hdt : hasPair '-' '-' (c2 :: t') = false := by
        rw [hasPair_cons_cons] at hd
        rcases Bool.or_eq_false_iff.mp hd with ⟨_, h⟩
        exact h
      have hst : hasPair '/' '*' (c2 :: t') = false := by
        rw [hasPair_cons_cons] at hs
        rcases Bool.or_eq_false_iff.mp hs with ⟨_, h⟩
        exact h
      rw [scanLine]
      rw [if_neg (by intro ⟨_, _, ha, hb⟩; exact hd' ⟨ha, hb⟩),
        if_neg (by intro ⟨_, _, ha, hb⟩; exact hs' ⟨ha, hb⟩),
        if_neg (by rw [h5]; simp), if_neg (by rw [h4]; simp)]
      rw [handleChar_plain s prev c1 h1 h2 h3 hq1]
      rw [ih _ (some c1) rfl rfl rfl (by simp [h4]) (by simp [h5])
        (fun c hc => hq c (List.mem_cons_of_mem c1 hc)) hdt hst]
      have := plainScan_append [c1] (c2 :: t') s.current_statement s.statements
      rw [List.singleton_append] at this
      rw [← this]

theorem processLine_plain (s : SplitState) (line : List Char)
    (h1 : s.in_single_quote = false) (h2 : s.in_double_quote = false)
    (h3 : s.in_backtick = false) (h4 : s.in_single_line_comment = false)
    (h5 : s.in_multi_line_comment = false)
    (hq : ∀ c ∈ line, c ≠ '\'' ∧ c ≠ '"' ∧ c ≠ backquote)
    (hd : hasPair '-' '-' line = false) (hs : hasPair '/' '*' line = false) :
    processLine s line =
      { in_single_quote := false, in_double_quote := false,
        in_backtick := false, in_single_line_comment := false,
        in_multi_line_comment := false,
        current_statement :=
          (plainScan s.current_statement s.statements (line ++ ['\n'])).1,
        statements :=
          (plainScan s.current_statement s.statements (line ++ ['\n'])).2 } := by
  rw [processLine, scanLine_plain line s none h1 h2 h3 h4 h5 hq hd hs]
  rw [plainScan_append line ['\n']]
  rw [endOfLine]
  have : ∀ (b : List Char) (st : List (List Char)),
      plainScan b st ['\n'] = (b ++ ['\n'], st) := by
    intro b st
    rw [plainScan, if_neg (by decide)]
    rfl
  rw [this]

theorem processLines_plain :
    ∀ (lines : List (List Char)) (s : SplitState),
      s.in_single_quote = false → s.in_double_quote = false →
      s.in_backtick = false → s.in_single_line_comment = false →
      s.in_multi_line_comment = false →
      (∀ line ∈ lines,
        (∀ c ∈ line, c ≠ '\'' ∧ c ≠ '"' ∧ c ≠ backquote) ∧
          hasPair '-' '-' line = false ∧ hasPair '/' '*' line = false) →
      processLines s lines =
        { in_single_quote := false, in_double_quote := false,
          in_backtick := false, in_single_line_comment := false,
          in_multi_line_comment := false,
          current_statement :=
            (plainScan s.current_statement s.statements
              ((lines.map (fun p => p ++ ['\n'])).flatten)).1,
          statements :=
            (plainScan s.current_statement s.statements
              ((lines.map (fun p => p ++ ['\n'])).flatten)).2 } := by
  intro lines
  induction lines with
  | nil =>
    intro s h1 h2 h3 h4 h5 _
    obtain ⟨sq, dq, bt, slc, mlc, cs, st⟩ := s
    simp only at h1 h2 h3 h4 h5
    subst h1 h2 h3 h4 h5
    rfl
  | cons l ls ih =>
    intro s h1 h2 h3 h4 h5 hlines
    have hl := hlines l (List.mem_cons_self l ls)
    rw [processLines,
      processLine_plain s l h1 h2 h3 h4 h5 hl.1 hl.2.1 hl.2.2]
    rw [ih _ rfl rfl rfl rfl rfl
      (fun m hm => hlines m (List.mem_cons_of_mem l hm))]
    simp only [List.map_cons, List.flatten_cons]
    rw [plainScan_append (l ++ ['\n'])]

theorem finishSplit_eq (s : SplitState) :
    finishSplit s = s.statements ++ listIfNE (trim s.current_statement) := by
  rw [finishSplit, push_trim_eq]

theorem consHead_nil_splitOnChar (sep : Char) (l : List Char) :
    consHead [] (splitOnChar sep l) = splitOnChar sep l := by
  cases hS : splitOnChar sep l with
  | nil => exact absurd hS (splitOnChar_ne_nil sep l)
  | cons p ps => simp [consHead]

theorem naiveSplit_append_newline (content : List Char) :
    naiveSplit (content ++ ['\n']) = naiveSplit content := by
  obtain ⟨ps, q, h1, h2⟩ := splitOnChar_append_char ';' '\n' (by decide) content
  rw [naiveSplit, naiveSplit, h1, h2]
  simp only [List.map_append, List.map_cons, List.map_nil, List.filter_append]
  rw [trim_append_space (by decide)]

/-- On a script with no quote characters and no comment markers the
stateful scanner agrees with the naive split-trim-filter strategy. -/
theorem split_eq_naive_of_plain (content : List Char) (h : PlainOk content) :
    split_sql_statements content = naiveSplit content := by
  obtain ⟨hq, hd, hs⟩ := h
  rw [split_sql_statements]
  rw [processLines_plain (splitLines content) initialState rfl rfl rfl rfl rfl ?hlines]
  case hlines =>
    intro line hline
    have hinf : line <:+: content := splitOnChar_infix_of_mem '\n' hline
    exact ⟨fun c hc => hq c (hinf.subset hc),
      hasPair_infix_false hinf hd, hasPair_infix_false hinf hs⟩
  rw [finishSplit_eq]
  simp only [initialState]
  have hjoin : ((splitLines content).map (fun p => p ++ ['\n'])).flatten =
      content ++ ['\n'] := splitOnChar_join '\n' content
  rw [hjoin]
  have hspec := plainScan_spec (content ++ ['\n']) [] []
  rw [consHead_nil_splitOnChar] at hspec
  rw [hspec, List.nil_append]
  exact naiveSplit_append_newline content

/-! ### Round-trip machinery -/

theorem naiveSplit_mem_facts {l p : List Char} (hp : p ∈ naiveSplit l) :
    trim p = p ∧ p ≠ [] ∧ ';' ∉ p ∧ p <:+: l := by
  rw [naiveSplit] at hp
  obtain ⟨hmem, hpred⟩ := List.mem_filter.mp hp
  obtain ⟨q, hq, rfl⟩ := List.mem_map.mp hmem
  refine ⟨trim_idem q, ?_, ?_, ?_⟩
  · intro hnil
    rw [hnil] at hpred
    simp at hpred
  · intro hsem
    exact splitOnChar_mem_not_sep ';' hq ((trim_infix_self q).subset hsem)
  · exact (trim_infix_self q).trans (splitOnChar_infix_of_mem ';' hq)

/-- Modelled from the spec: "concatenating all returned statements with
`;` separators". -/
def joinSep (sep : Char) : List (List Char) → List Char
  | [] => []
  | [p] => p
  | p :: q :: ps => p ++ sep :: joinSep sep (q :: ps)

theorem joinSep_mem {sep c : Char} :
    ∀ {ps : List (List Char)}, c ∈ joinSep sep ps →
      c = sep ∨ ∃ p ∈ ps, c ∈ p := by
  intro ps
  induction ps with
  | nil => intro h; simp [joinSep] at h
  | cons p ps' ih =>
    intro h
    cases ps' with
    | nil =>
      rw [joinSep] at h
      exact Or.inr ⟨p, List.mem_cons_self p [], h⟩
    | cons q ps'' =>
      rw [joinSep] at h
      rcases List.mem_append.mp h with h | h
      · exact Or.inr ⟨p, List.mem_cons_self p _, h⟩
      · rcases List.mem_cons.mp h with h | h
        · exact Or.inl h
        · rcases ih h with h | ⟨r, hr, hc⟩
          · exact Or.inl h
          · exact Or.inr ⟨r, List.mem_cons_of_mem p hr, hc⟩

theorem hasPair_joinSep {a b sep : Char} (ha : a ≠ sep) (hb : b ≠ sep) :
    ∀ {ps : List (List Char)}, (∀ p ∈ ps, hasPair a b p = false) →
      hasPair a b (joinSep sep ps) = false := by
  intro ps
  induction ps with
  | nil => intro _; rfl
  | cons p ps' ih =>
    intro h
    cases ps' with
    | nil => exact h p (List.mem_cons_self p [])
    | cons q ps'' =>
      rw [joinSep, hasPair_append_sep ha hb]
      rw [h p (List.mem_cons_self p _),
        ih (fun r hr => h r (List.mem_cons_of_mem p hr))]
      rfl

theorem splitOnChar_no_sep {sep : Char} :
    ∀ {p : List Char}, sep ∉ p → splitOnChar sep p = [p] := by
  intro p
  induction p with
  | nil => intro _; rfl
  | cons c p' ih =>
    intro h
    rw [splitOnChar, if_neg (fun hc => h (List.mem_cons.mpr (Or.inl hc.symm))),
      ih (fun hm => h (List.mem_cons_of_mem c hm))]

theorem splitOnChar_piece_sep {sep : Char} :
    ∀ {p : List Char} (v : List Char), sep ∉ p →
      splitOnChar sep (p ++ sep :: v) = p :: splitOnChar sep v := by
  intro p
  induction p with
  | nil =>
    intro v _
    rw [List.nil_append, splitOnChar, if_pos rfl]
  | cons c p' ih =>
    intro v h
    rw [List.cons_append, splitOnChar,
      if_neg (fun hc => h (List.mem_cons.mpr (Or.inl hc.symm))),
      ih v (fun hm => h (List.mem_cons_of_mem c hm))]

theorem splitOnChar_joinSep {sep : Char} :
    ∀ {ps : List (List Char)}, ps ≠ [] → (∀ p ∈ ps, sep ∉ p) →
      splitOnChar sep (joinSep sep ps) = ps := by
  intro ps
  induction ps with
  | nil => intro h _; exact absurd rfl h
  | cons p ps' ih =>
    intro _ h
    cases ps' with
    | nil => exact splitOnChar_no_sep (h p (List.mem_cons_self p []))
    | cons q ps'' =>
      rw [joinSep, splitOnChar_piece_sep _ (h p (List.mem_cons_self p _)),
        ih (by simp) (fun r hr => h r (List.mem_cons_of_mem p hr))]

theorem naiveSplit_joinSep {ps : List (List Char)}
    (h : ∀ p ∈ ps, trim p = p ∧ p ≠ [] ∧ ';' ∉ p) :
    naiveSplit (joinSep ';' ps) = ps := by
  cases ps with
  | nil => rfl
  | cons p ps' =>
    rw [naiveSplit, splitOnChar_joinSep (by simp) (fun r hr => (h r hr).2.2)]
    have hmap : (p :: ps').map trim = p :: ps' :=
      List.map_congr_left (fun r hr => (h r hr).1) |>.trans (List.map_id _)
    rw [hmap]
    rw [List.filter_eq_self.mpr]
    intro r hr
    have := (h r hr).2.1
    simp [List.isEmpty_iff, this]

/-- Round trip on plain scripts: joining the split output with `;` and
splitting again reproduces the output exactly. -/
theorem roundtrip_plain (content : List Char) (h : PlainOk content) :
    split_sql_statements (joinSep ';' (split_sql_statements content)) =
      split_sql_statements content := by
  have hps := split_eq_naive_of_plain content h
  rw [hps]
  have hfacts : ∀ p ∈ naiveSplit content, trim p = p ∧ p ≠ [] ∧ ';' ∉ p :=
    fun p hp =>
      ⟨(naiveSplit_mem_facts hp).1, (naiveSplit_mem_facts hp).2.1,
        (naiveSplit_mem_facts hp).2.2.1⟩
  have hplain : PlainOk (joinSep ';' (naiveSplit content)) := by
    obtain ⟨hq, hd, hs⟩ := h
    refine ⟨?_, ?_, ?_⟩
    · intro c hc
      rcases joinSep_mem hc with rfl | ⟨p, hp, hcp⟩
      · refine ⟨by decide, by decide, by decide⟩
      · exact hq c ((naiveSplit_mem_facts hp).2.2.2.subset hcp)
    · refine hasPair_joinSep (by decide) (by decide) ?_
      intro p hp
      exact hasPair_infix_false (naiveSplit_mem_facts hp).2.2.2 hd
    · refine hasPair_joinSep (by decide) (by decide) ?_
      intro p hp
      exact hasPair_infix_false (naiveSplit_mem_facts hp).2.2.2 hs
  rw [split_eq_naive_of_plain _ hplain]
  exact naiveSplit_joinSep hfacts

/-! ### Every emitted statement is trimmed and non-empty -/

/-- All statements collected so far are trimmed and non-empty. -/
def StOk (s : SplitState) : Prop :=
  ∀ st ∈ s.statements, trim st = st ∧ st ≠ []

theorem StOk_handleChar (s : SplitState) (prev : Option Char) (c : Char)
    (h : StOk s) : StOk (handleChar s prev c) := by
  rw [handleChar]
  split_ifs <;> try exact h
  intro st hst
  simp only at hst
  rcases List.mem_append.mp hst with hst | hst
  · exact h st hst
  · simp only [List.mem_singleton] at hst
    subst hst
    refine ⟨trim_idem _, ?_⟩
    assumption

theorem StOk_scanLine :
    ∀ (s : SplitState) (prev : Option Char) (l : List Char),
      StOk s → StOk (scanLine s prev l) := by
  intro s prev l
  induction s, prev, l using scanLine.induct with
  | case1 s prev => exact fun h => h
  | case2 s prev c hm => intro h; rw [scanLine, if_pos hm]; exact h
  | case3 s prev c hm hsl =>
    intro h; rw [scanLine, if_neg hm, if_pos hsl]; exact h
  | case4 s prev c hm hsl =>
    intro h; rw [scanLine, if_neg hm, if_neg hsl]
    exact StOk_handleChar _ _ _ h
  | case5 s prev c1 c2 t h1 => intro h; rw [scanLine, if_pos h1]; exact h
  | case6 s prev c1 c2 t h1 h2 ih =>
    intro h; rw [scanLine, if_neg h1, if_pos h2]; exact ih h
  | case7 s prev c1 c2 t h1 h2 h3 h4 ih =>
    intro h; rw [scanLine, if_neg h1, if_neg h2, if_pos h3, if_pos h4]
    exact ih h
  | case8 s prev c1 c2 t h1 h2 h3 h4 ih =>
    intro h; rw [scanLine, if_neg h1, if_neg h2, if_pos h3, if_neg h4]
    exact ih h
  | case9 s prev c1 c2 t h1 h2 h3 h4 ih =>
    intro h; rw [scanLine, if_neg h1, if_neg h2, if_neg h3, if_pos h4]
    exact ih h
  | case10 s prev c1 c2 t h1 h2 h3 h4 ih =>
    intro h; rw [scanLine, if_neg h1, if_neg h2, if_neg h3, if_neg h4]
    exact ih (StOk_handleChar _ _ _ h)

theorem StOk_processLines :
    ∀ (lines : List (List Char)) (s : SplitState),
      StOk s → StOk (processLines s lines) := by
  intro lines
  induction lines with
  | nil => exact fun s h => h
  | cons l ls ih =>
    intro s h
    rw [processLines]
    exact ih _ (StOk_scanLine s none l h)

/-- Every statement returned by the splitter is trimmed and non-empty. -/
theorem split_statements_facts (content : List Char) :
    ∀ st ∈ split_sql_statements content, trim st = st ∧ st ≠ [] := by
  intro st hst
  have hok : StOk (processLines initialState (splitLines content)) :=
    StOk_processLines _ _ (by intro x hx; simp [initialState] at hx)
  rw [split_sql_statements, finishSplit_eq] at hst
  rcases List.mem_append.mp hst with hst | hst
  · exact hok st hst
  · rw [listIfNE] at hst
    by_cases htr :
        trim (processLines initialState (splitLines content)).current_statement = []
    · rw [if_pos htr] at hst
      simp at hst
    · rw [if_neg htr] at hst
      simp only [List.mem_singleton] at hst
      subst hst
      exact ⟨trim_idem _, htr⟩

/-! ### The scan step and the flag invariant -/

theorem scanLine_cons (s : SplitState) (prev : Option Char) (c : Char)
    (t : List Char) :
    scanLine s prev (c :: t) =
      scanLine (scanStep s prev c t).1 (scanStep s prev c t).2.1
        (scanStep s prev c t).2.2 := by
  cases t with
  | nil =>
    by_cases hm : s.in_multi_line_comment = true <;>
      by_cases hs : s.in_single_line_comment = true <;>
        simp [scanLine, scanStep, hm, hs]
  | cons c2 t' =>
    by_cases h1 : noQuote s = true ∧ s.in_multi_line_comment = false ∧
        c = '-' ∧ c2 = '-'
    · simp [scanLine, scanStep, h1]
    · by_cases h2 : noQuote s = true ∧ s.in_single_line_comment = false ∧
          c = '/' ∧ c2 = '*'
      · simp [scanLine, scanStep, h1, h2]
      · by_cases hm : s.in_multi_line_comment = true
        · by_cases h3 : c = '*' ∧ c2 = '/' <;>
            simp [scanLine, scanStep, h1, h2, hm, h3]
        · have hm' : s.in_multi_line_comment = false := by simpa using hm
          have h1' : ¬(noQuote s = true ∧ c = '-' ∧ c2 = '-') :=
            fun hx => h1 ⟨hx.1, hm', hx.2.1, hx.2.2⟩
          by_cases hs : s.in_single_line_comment = true
          · simp [scanLine, scanStep, h1', hm, hs]
          · have hs' : s.in_single_line_comment = false := by simpa using hs
            have h2' : ¬(noQuote s = true ∧ c = '/' ∧ c2 = '*') :=
              fun hx => h2 ⟨hx.1, hs', hx.2.1, hx.2.2⟩
            simp [scanLine, scanStep, h1', h2', hm, hs]

/-- The flag invariant of the scan state: at most one quote flag, at most
one comment flag, and never a quote flag together with a comment flag. -/
def goodFlags (s : SplitState) : Prop :=
  (s.in_single_quote && s.in_double_quote) = false ∧
    (s.in_single_quote && s.in_backtick) = false ∧
    (s.in_double_quote && s.in_backtick) = false ∧
    (s.in_single_line_comment && s.in_multi_line_comment) = false ∧
    ((s.in_single_quote || s.in_double_quote || s.in_backtick) &&
      (s.in_single_line_comment || s.in_multi_line_comment)) = false

instance (s : SplitState) : Decidable (goodFlags s) := by
  unfold goodFlags; infer_instance

theorem goodFlags_handleChar (s : SplitState) (prev : Option Char) (c : Char)
    (h : goodFlags s) (hmlc : s.in_multi_line_comment = false)
    (hslc : s.in_single_line_comment = false) :
    goodFlags (handleChar s prev c) := by
  obtain ⟨sq, dq, bt, slc, mlc, cs, st⟩ := s
  simp only at hmlc hslc
  subst hmlc hslc
  simp only [goodFlags] at h
  rw [handleChar]
  split_ifs <;> simp_all [goodFlags, appendChar]

theorem goodFlags_scanStep (s : SplitState) (prev : Option Char) (c : Char)
    (t : List Char) (h : goodFlags s) : goodFlags (scanStep s prev c t).1 := by
  rw [scanStep]
  by_cases h1 : noQuote s = true ∧ s.in_multi_line_comment = false ∧
      c = '-' ∧ t.head? = some '-'
  · rw [if_pos h1]
    obtain ⟨hnq, hm, _, _⟩ := h1
    rw [noQuote] at hnq
    simp only [Bool.and_eq_true, Bool.not_eq_true'] at hnq
    obtain ⟨⟨hsq, hdq⟩, hbt⟩ := hnq
    obtain ⟨sq, dq, bt, slc, mlc, cs, st⟩ := s
    simp_all [goodFlags]
  · rw [if_neg h1]
    by_cases h2 : noQuote s = true ∧ s.in_single_line_comment = false ∧
        c = '/' ∧ t.head? = some '*'
    · rw [if_pos h2]
      obtain ⟨hnq, hsl, _, _⟩ := h2
      rw [noQuote] at hnq
      simp only [Bool.and_eq_true, Bool.not_eq_true'] at hnq
      obtain ⟨⟨hsq, hdq⟩, hbt⟩ := hnq
      obtain ⟨sq, dq, bt, slc, mlc, cs, st⟩ := s
      simp_all [goodFlags]
    · rw [if_neg h2]
      by_cases hm : s.in_multi_line_comment = true
      · rw [if_pos hm]
        by_cases h3 : c = '*' ∧ t.head? = some '/'
        · rw [if_pos h3]
          obtain ⟨sq, dq, bt, slc, mlc, cs, st⟩ := s
          simp_all [goodFlags]
        · rw [if_neg h3]; exact h
      · rw [if_neg hm]
        by_cases hs : s.in_single_line_comment = true
        · rw [if_pos hs]; exact h
        · rw [if_neg hs]
          exact goodFlags_handleChar s prev c h (by simpa using hm)
            (by simpa using hs)

theorem goodFlags_endOfLine (s : SplitState) (h : goodFlags s) :
    goodFlags (endOfLine s) := by
  obtain ⟨sq, dq, bt, slc, mlc, cs, st⟩ := s
  simp_all [goodFlags, endOfLine]

theorem goodFlags_initialState : goodFlags initialState := by decide

theorem scanStep_semicolon_in_context (s : SplitState) (prev : Option Char)
    (t : List Char)
    (h : s.in_single_quote = true ∨ s.in_double_quote = true ∨
      s.in_backtick = true ∨ s.in_single_line_comment = true ∨
      s.in_multi_line_comment = true) :
    scanStep s prev ';' t = (appendChar s ';', some ';', t) := by
  rw [scanStep]
  rw [if_neg (by intro ⟨_, _, hc, _⟩; exact absurd hc (by decide)),
    if_neg (by intro ⟨_, _, hc, _⟩; exact absurd hc (by decide))]
  by_cases hm : s.in_multi_line_comment = true
  · rw [if_pos hm, if_neg (by intro ⟨hc, _⟩; exact absurd hc (by decide))]
  · rw [if_neg hm]
    by_cases hs : s.in_single_line_comment = true
    · rw [if_pos hs]
    · rw [if_neg hs]
      have hq : s.in_single_quote = true ∨ s.in_double_quote = true ∨
          s.in_backtick = true := by
        rcases h with h | h | h | h | h
        exacts [Or.inl h, Or.inr (Or.inl h), Or.inr (Or.inr h),
          absurd h hs, absurd h hm]
      rw [handleChar,
        if_neg (by intro ⟨hc, _⟩; exact absurd hc (by decide)),
        if_neg (by intro ⟨hc, _⟩; exact absurd hc (by decide)),
        if_neg (by intro ⟨hc, _⟩; exact absurd hc (by decide)),
        if_neg (by intro ⟨_, h1, h2, h3⟩; rcases hq with h | h | h <;> simp_all)]

theorem handleChar_backslash_escape (s : SplitState) (c : Char)
    (h : c = '\'' ∨ c = '"') :
    handleChar s (some '\\') c = appendChar s c := by
  rcases h with rfl | rfl
  · rw [handleChar]
    by_cases h1 : ('\'' : Char) = '\'' ∧ s.in_double_quote = false ∧
        s.in_backtick = false
    · rw [if_pos h1, if_pos rfl]
    · rw [if_neg h1,
        if_neg (fun hc => absurd hc.1 (by decide)),
        if_neg (fun hc => absurd hc.1 (by decide)),
        if_neg (fun hc => absurd hc.1 (by decide))]
  · rw [handleChar, if_neg (fun hc => absurd hc.1 (by decide))]
    by_cases h2 : ('"' : Char) = '"' ∧ s.in_single_quote = false ∧
        s.in_backtick = false
    · rw [if_pos h2, if_pos rfl]
    · rw [if_neg h2,
        if_neg (fun hc => absurd hc.1 (by decide)),
        if_neg (fun hc => absurd hc.1 (by decide))]

/-! ### Transaction and folder-processing lemmas -/

/-- The statements appearing in `exec` actions, in order. -/
def executedStmts (acts : List DbAction) : List String :=
  acts.filterMap (fun a =>
    match a with
    | DbAction.exec st => some st
    | _ => none)

theorem run_statements_ok (execOk : String → Bool) :
    ∀ stmts : List String, (∀ st ∈ stmts, execOk st = true) →
      run_statements execOk stmts =
        (stmts.map DbAction.exec ++ [DbAction.commit], true) := by
  intro stmts
  induction stmts with
  | nil => intro _; rfl
  | cons st rest ih =>
    intro h
    rw [run_statements, if_pos (h st (List.mem_cons_self st rest)),
      ih (fun x hx => h x (List.mem_cons_of_mem st hx))]
    rfl

theorem run_statements_fail (execOk : String → Bool) :
    ∀ stmts : List String, (∃ st ∈ stmts, execOk st = false) →
      run_statements execOk stmts =
        ((stmts.take ((stmts.takeWhile execOk).length + 1)).map DbAction.exec
          ++ [DbAction.rollback], false) := by
  intro stmts
  induction stmts with
  | nil => intro h; simp at h
  | cons st rest ih =>
    intro h
    by_cases hst : execOk st = true
    · have hrest : ∃ x ∈ rest, execOk x = false := by
        obtain ⟨x, hx, hfx⟩ := h
        rcases List.mem_cons.mp hx with rfl | hx
        · rw [hst] at hfx; cases hfx
        · exact ⟨x, hx, hfx⟩
      rw [run_statements, if_pos hst, ih hrest]
      rw [List.takeWhile_cons, if_pos hst]
      simp
    · rw [run_statements, if_neg hst]
      rw [List.takeWhile_cons, if_neg hst]
      simp

theorem execute_statements_ok (execOk : String → Bool) (stmts : List String)
    (h : ∀ st ∈ stmts, execOk st = true) :
    execute_statements execOk stmts =
      (stmts.map DbAction.exec ++ [DbAction.commit], true) := by
  rw [execute_statements, run_statements_ok execOk stmts h]
  simp

theorem execute_statements_fail (execOk : String → Bool) (stmts : List String)
    (h : ∃ st ∈ stmts, execOk st = false) :
    execute_statements execOk stmts =
      ((stmts.take ((stmts.takeWhile execOk).length + 1)).map DbAction.exec
        ++ [DbAction.rollback, DbAction.rollback], false) := by
  rw [execute_statements, run_statements_fail execOk stmts h]
  simp

theorem executedStmts_map_exec (stmts : List String) :
    executedStmts (stmts.map DbAction.exec) = stmts := by
  induction stmts with
  | nil => rfl
  | cons st rest ih => simp [executedStmts] at ih ⊢; exact ih

theorem executedStmts_append (a b : List DbAction) :
    executedStmts (a ++ b) = executedStmts a ++ executedStmts b := by
  simp [executedStmts]

instance : IsTotal (String × String) (fun a b => a.1 ≤ b.1) :=
  ⟨fun a b => le_total a.1 b.1⟩

instance : IsTrans (String × String) (fun a b => a.1 ≤ b.1) :=
  ⟨fun _ _ _ h1 h2 => le_trans h1 h2⟩

theorem sortByPath_sorted (files : List (String × String)) :
    (sortByPath files).Pairwise (fun a b => a.1 ≤ b.1) :=
  List.sorted_insertionSort _ files

theorem sortByPath_perm (files : List (String × String)) :
    List.Perm (sortByPath files) files :=
  List.perm_insertionSort _ files

theorem process_folder_mem (execOk : String → Bool)
    (files : List (String × String)) {pf : String × String} (h : pf ∈ files) :
    (pf.1, execute_sql_file execOk pf.2) ∈ process_folder execOk files := by
  rw [process_folder]
  exact List.mem_map_of_mem _ ((sortByPath_perm files).mem_iff.mpr h)

theorem process_folder_sorted (execOk : String → Bool)
    (files : List (String × String)) :
    ((process_folder execOk files).map Prod.fst).Pairwise (fun a b => a ≤ b) := by
  rw [process_folder, List.map_map]
  have : (Prod.fst ∘ fun pf : String × String =>
      (pf.1, execute_sql_file execOk pf.2)) = Prod.fst := rfl
  rw [this]
  exact (sortByPath_sorted files).map Prod.fst (fun a b hab => hab)

theorem process_folder_two (execOk : String → Bool) (p1 p2 c1 c2 : String)
    (h : p1 < p2) :
    process_folder execOk [(p1, c1), (p2, c2)] =
      [(p1, execute_sql_file execOk c1), (p2, execute_sql_file execOk c2)] := by
  rw [process_folder, sortByPath]
  simp [List.insertionSort, List.orderedInsert, le_of_lt h]

theorem wait_polls_le (hasFiles : Nat → Bool) :
    ∀ m e, wait_polls hasFiles m e ≤ (m - e + 1) / 2 := by
  intro m
  have H : ∀ k e, m - e ≤ k → wait_polls hasFiles m e ≤ (m - e + 1) / 2 := by
    intro k
    induction k with
    | zero =>
      intro e he
      rw [wait_polls, dif_neg (by omega)]
      exact Nat.zero_le _
    | succ k ih =>
      intro e he
      rw [wait_polls]
      by_cases hlt : e < m
      · rw [dif_pos hlt]
        by_cases hf : hasFiles e = true
        · rw [if_pos hf]; omega
        · rw [if_neg hf]
          have h2 := ih (e + wait_interval) (by simp only [wait_interval]; omega)
          simp only [wait_interval] at h2 ⊢
          omega
      · rw [dif_neg hlt]; exact Nat.zero_le _
  exact fun e => H (m - e) e le_rfl

theorem wait_loop_step (hasFiles : Nat → Bool) (e : Nat) (he : e < max_wait)
    (hf : hasFiles e = false) :
    wait_loop hasFiles max_wait e = wait_loop hasFiles max_wait (e + 2) := by
  rw [wait_loop, dif_pos he, if_neg (by simp [hf]), wait_interval]

theorem wait_loop_found (hasFiles : Nat → Bool) (e : Nat) (he : e < max_wait)
    (hf : hasFiles e = true) :
    wait_loop hasFiles max_wait e = some e := by
  rw [wait_loop, dif_pos he, if_pos hf]

theorem wait_loop_none_of_never (hasFiles : Nat → Bool)
    (hall : ∀ e, hasFiles e = false) :
    ∀ m e, wait_loop hasFiles m e = none := by
  intro m
  have H : ∀ k e, m - e ≤ k → wait_loop hasFiles m e = none := by
    intro k
    induction k with
    | zero =>
      intro e he
      rw [wait_loop, dif_neg (by omega)]
    | succ k ih =>
      intro e he
      rw [wait_loop]
      by_cases hlt : e < m
      · rw [dif_pos hlt, if_neg (by simp [hall e])]
        exact ih (e + wait_interval) (by simp only [wait_interval]; omega)
      · rw [dif_neg hlt]
  exact fun e => H (m - e) e le_rfl

theorem wait_loop_some_bounds (hasFiles : Nat → Bool) (m : Nat) :
    ∀ e t, wait_loop hasFiles m e = some t →
      e ≤ t ∧ t < m ∧ (t - e) % 2 = 0 := by
  have H : ∀ k e t, m - e ≤ k → wait_loop hasFiles m e = some t →
      e ≤ t ∧ t < m ∧ (t - e) % 2 = 0 := by
    intro k
    induction k with
    | zero =>
      intro e t he h
      rw [wait_loop, dif_neg (by omega)] at h
      cases h
    | succ k ih =>
      intro e t he h
      rw [wait_loop] at h
      by_cases hlt : e < m
      · rw [dif_pos hlt] at h
        by_cases hf : hasFiles e = true
        · rw [if_pos hf] at h
          cases h
          exact ⟨le_rfl, hlt, by omega⟩
        · rw [if_neg hf] at h
          simp only [wait_interval] at h
          have := ih (e + 2) t (by omega) h
          exact ⟨by omega, this.2.1, by omega⟩
      · rw [dif_neg hlt] at h
        cases h
  exact fun e t h => H (m - e) e t le_rfl h

theorem wait_loop_appears_at_ten (hasFiles : Nat → Bool)
    (h10 : ∀ u, hasFiles u = decide (10 ≤ u)) :
    wait_loop hasFiles max_wait 0 = some 10 := by
  have hmw : (10 : Nat) < max_wait := by rw [max_wait]; omega
  rw [wait_loop_step hasFiles 0 (by rw [max_wait]; omega)
      ((h10 0).trans (by decide)),
    wait_loop_step hasFiles 2 (by rw [max_wait]; omega)
      ((h10 2).trans (by decide)),
    wait_loop_step hasFiles 4 (by rw [max_wait]; omega)
      ((h10 4).trans (by decide)),
    wait_loop_step hasFiles 6 (by rw [max_wait]; omega)
      ((h10 6).trans (by decide)),
    wait_loop_step hasFiles 8 (by rw [max_wait]; omega)
      ((h10 8).trans (by decide))]
  exact wait_loop_found hasFiles 10 hmw ((h10 10).trans (by decide))

/-! ### The flat scan on marker-free text -/

theorem isSpace_cases {c : Char} (h : isSpace c = true) :
    c = ' ' ∨ c = '\t' ∨ c = '\r' ∨ c = '\n' := by
  rw [isSpace, Char.isWhitespace] at h
  simp only [Bool.or_eq_true, decide_eq_true_eq] at h
  tauto

theorem isSpace_ne {c : Char} (h : isSpace c = true) :
    c ≠ '\'' ∧ c ≠ '"' ∧ c ≠ backquote ∧ c ≠ ';' ∧ c ≠ '\\' ∧
      c ≠ '-' ∧ c ≠ '/' := by
  rcases isSpace_cases h with rfl | rfl | rfl | rfl <;>
    refine ⟨by decide, by decide, by decide, by decide, by decide, by decide,
      by decide⟩

theorem handleChar_in_single_line_comment (s : SplitState) (prev : Option Char)
    (c : Char) :
    (handleChar s prev c).in_single_line_comment = s.in_single_line_comment := by
  rw [handleChar]; split_ifs <;> rfl

theorem handleChar_in_multi_line_comment (s : SplitState) (prev : Option Char)
    (c : Char) :
    (handleChar s prev c).in_multi_line_comment = s.in_multi_line_comment := by
  rw [handleChar]; split_ifs <;> rfl

theorem handleChar_prev_congr (s : SplitState) {prev prev' : Option Char}
    (c : Char) (h : prev = some '\\' ↔ prev' = some '\\') :
    handleChar s prev c = handleChar s prev' c := by
  by_cases hp : prev = some '\\'
  · have hp' := h.mp hp
    rw [hp, hp']
  · have hp' : ¬prev' = some '\\' := fun hx => hp (h.mpr hx)
    rw [handleChar, handleChar]
    simp only [if_neg hp, if_neg hp']

theorem handleChar_ws (s : SplitState) (prev : Option Char) {c : Char}
    (h : isSpace c = true) : handleChar s prev c = appendChar s c := by
  obtain ⟨h1, h2, h3, h4, _, _, _⟩ := isSpace_ne h
  rw [handleChar, if_neg (fun hx => h1 hx.1), if_neg (fun hx => h2 hx.1),
    if_neg (fun hx => h3 hx.1), if_neg (fun hx => h4 hx.1)]

theorem scanFlat_in_single_line_comment (l : List Char) :
    ∀ (s : SplitState) (prev : Option Char),
      (scanFlat s prev l).in_single_line_comment = s.in_single_line_comment := by
  induction l with
  | nil => intro s prev; rfl
  | cons c t ih =>
    intro s prev
    rw [scanFlat, ih, handleChar_in_single_line_comment]

theorem scanFlat_in_multi_line_comment (l : List Char) :
    ∀ (s : SplitState) (prev : Option Char),
      (scanFlat s prev l).in_multi_line_comment = s.in_multi_line_comment := by
  induction l with
  | nil => intro s prev; rfl
  | cons c t ih =>
    intro s prev
    rw [scanFlat, ih, handleChar_in_multi_line_comment]

theorem lastPrevOpt_cons (c : Char) (u : List Char) (p : Option Char) :
    lastPrevOpt (c :: u) p = lastPrevOpt u (some c) := by
  cases u with
  | nil => rfl
  | cons d u' =>
    rw [lastPrevOpt, lastPrevOpt, List.getLast?_cons_cons]
    cases hg : (d :: u').getLast? with
    | none => simp at hg
    | some e => rfl

theorem lastPrevOpt_ne_backslash {u : List Char} {p : Option Char}
    (hu : ∀ c ∈ u, isSpace c = true) (hp : p ≠ some '\\') :
    lastPrevOpt u p ≠ some '\\' := by
  rw [lastPrevOpt]
  cases hl : u.getLast? with
  | none => exact hp
  | some d =>
    have hd : d ∈ u := List.mem_of_mem_getLast? (hl ▸ rfl)
    intro hx
    cases hx
    exact absurd rfl (isSpace_ne (hu _ hd)).2.2.2.2.1

theorem scanFlat_append (u : List Char) :
    ∀ (v : List Char) (s : SplitState) (prev : Option Char),
      scanFlat s prev (u ++ v) =
        scanFlat (scanFlat s prev u) (lastPrevOpt u prev) v := by
  induction u with
  | nil => intro v s prev; rfl
  | cons c u' ih =>
    intro v s prev
    rw [List.cons_append, scanFlat, ih, lastPrevOpt_cons]
    rfl

theorem scanFlat_prev_congr :
    ∀ (l : List Char) (s : SplitState) {prev prev' : Option Char},
      (prev = some '\\' ↔ prev' = some '\\') →
      scanFlat s prev l = scanFlat s prev' l := by
  intro l
  cases l with
  | nil => intro s prev prev' _; rfl
  | cons c t =>
    intro s prev prev' h
    rw [scanFlat, scanFlat, handleChar_prev_congr s c h]

theorem scanFlat_ws :
    ∀ (w : List Char) (s : SplitState) (prev : Option Char),
      (∀ c ∈ w, isSpace c = true) →
      scanFlat s prev w = { s with current_statement := s.current_statement ++ w } := by
  intro w
  induction w with
  | nil =>
    intro s prev _
    simp [scanFlat]
  | cons c w' ih =>
    intro s prev h
    rw [scanFlat, handleChar_ws s prev (h c (List.mem_cons_self c w')),
      ih _ (some c) (fun d hd => h d (List.mem_cons_of_mem c hd))]
    simp [appendChar]

theorem scanLine_eq_scanFlat :
    ∀ (l : List Char) (s : SplitState) (prev : Option Char),
      s.in_single_line_comment = false → s.in_multi_line_comment = false →
      hasPair '-' '-' l = false → hasPair '/' '*' l = false →
      scanLine s prev l = scanFlat s prev l := by
  intro l
  induction l with
  | nil => intro s prev _ _ _ _; rfl
  | cons c1 t ih =>
    intro s prev h4 h5 hd hs
    cases t with
    | nil =>
      rw [scanLine, if_neg (by rw [h5]; simp), if_neg (by rw [h4]; simp)]
      rfl
    | cons c2 t' =>
      have hd' : ¬(c1 = '-' ∧ c2 = '-') := by
        rw [hasPair_cons_cons] at hd
        intro ⟨ha, hb⟩
        simp [ha, hb] at hd
      have hs' : ¬(c1 = '/' ∧ c2 = '*') := by
        rw [hasPair_cons_cons] at hs
        intro ⟨ha, hb⟩
        simp [ha, hb] at hs
      have hdt : hasPair '-' '-' (c2 :: t') = false := by
        rw [hasPair_cons_cons] at hd
        rcases Bool.or_eq_false_iff.mp hd with ⟨_, h⟩
        exact h
      have hst : hasPair '/' '*' (c2 :: t') = false := by
        rw [hasPair_cons_cons] at hs
        rcases Bool.or_eq_false_iff.mp hs with ⟨_, h⟩
        exact h
      rw [scanLine,
        if_neg (by intro ⟨_, _, ha, hb⟩; exact hd' ⟨ha, hb⟩),
        if_neg (by intro ⟨_, _, ha, hb⟩; exact hs' ⟨ha, hb⟩),
        if_neg (by rw [h5]; simp), if_neg (by rw [h4]; simp)]
      rw [ih (handleChar s prev c1) (some c1)
        (by rw [handleChar_in_single_line_comment, h4])
        (by rw [handleChar_in_multi_line_comment, h5]) hdt hst]
      rfl

theorem processLines_eq_scanFlat :
    ∀ (lines : List (List Char)) (s : SplitState),
      s.in_single_line_comment = false → s.in_multi_line_comment = false →
      (∀ line ∈ lines, hasPair '-' '-' line = false ∧
        hasPair '/' '*' line = false ∧ '\n' ∉ line) →
      processLines s lines =
        scanFlat s none ((lines.map (fun p => p ++ ['\n'])).flatten) := by
  intro lines
  induction lines with
  | nil => intro s _ _ _; rfl
  | cons l ls ih =>
    intro s h4 h5 hlines
    obtain ⟨hd, hs, hn⟩ := hlines l (List.mem_cons_self l ls)
    have hY4 : (scanFlat s none l).in_single_line_comment = false := by
      rw [scanFlat_in_single_line_comment, h4]
    have hY5 : (scanFlat s none l).in_multi_line_comment = false := by
      rw [scanFlat_in_multi_line_comment, h5]
    have hX : scanFlat s none (l ++ ['\n']) = endOfLine (scanFlat s none l) := by
      rw [scanFlat_append l ['\n'] s none]
      have : scanFlat (scanFlat s none l) (lastPrevOpt l none) ['\n'] =
          handleChar (scanFlat s none l) (lastPrevOpt l none) '\n' := rfl
      rw [this, handleChar_ws _ _ (by decide)]
      ext <;> simp [appendChar, endOfLine, hY4]
    rw [processLines, processLine, scanLine_eq_scanFlat l s none h4 h5 hd hs]
    rw [ih (endOfLine (scanFlat s none l)) rfl
      (by rw [endOfLine]; simpa using hY5)
      (fun m hm => hlines m (List.mem_cons_of_mem l hm))]
    rw [List.map_cons, List.flatten_cons, scanFlat_append (l ++ ['\n'])]
    rw [hX]
    have hprev : lastPrevOpt (l ++ ['\n']) none = some '\n' := by
      rw [lastPrevOpt, List.getLast?_concat]
    rw [hprev]
    exact (scanFlat_prev_congr _ _ (by simp)).symm

theorem handleChar_semicolon (s : SplitState) (prev : Option Char)
    (h1 : s.in_single_quote = false) (h2 : s.in_double_quote = false)
    (h3 : s.in_backtick = false) :
    handleChar s prev ';' =
      { s with current_statement := [],
               statements :=
                 if trim s.current_statement = [] then s.statements
                 else s.statements ++ [trim s.current_statement] } := by
  rw [handleChar, if_neg (fun hx => absurd hx.1 (by decide)),
    if_neg (fun hx => absurd hx.1 (by decide)),
    if_neg (fun hx => absurd hx.1 (by decide)),
    if_pos ⟨rfl, h1, h2, h3⟩]

theorem handleChar_transfer (s : SplitState) (prev : Option Char) (c : Char)
    (h : ¬(c = ';' ∧ s.in_single_quote = false ∧ s.in_double_quote = false ∧
      s.in_backtick = false)) :
    (handleChar s prev c).current_statement = s.current_statement ++ [c] ∧
      (handleChar s prev c).statements = s.statements ∧
      ∀ (b : List Char) (st : List (List Char)),
        handleChar { s with current_statement := b, statements := st } prev c =
          { handleChar s prev c with
            current_statement := b ++ [c], statements := st } := by
  obtain ⟨sq, dq, bt, slc, mlc, cs0, st0⟩ := s
  simp only at h
  refine ⟨?_, ?_, ?_⟩
  · rw [handleChar]
    split_ifs <;> simp_all [appendChar]
  · rw [handleChar]
    split_ifs <;> simp_all [appendChar]
  · intro b st
    rw [handleChar, handleChar]
    split_ifs <;> simp_all [appendChar]

theorem handleChar_cs_length (s : SplitState) (prev : Option Char) (c : Char) :
    (handleChar s prev c).current_statement.length ≤
      s.current_statement.length + 1 := by
  rw [handleChar]
  split_ifs <;> simp [appendChar]

theorem scanFlat_cs_length :
    ∀ (l : List Char) (s : SplitState) (prev : Option Char),
      (scanFlat s prev l).current_statement.length ≤
        s.current_statement.length + l.length := by
  intro l
  induction l with
  | nil => intro s prev; simp [scanFlat]
  | cons c t ih =>
    intro s prev
    rw [scanFlat]
    have h1 := ih (handleChar s prev c) (some c)
    have h2 := handleChar_cs_length s prev c
    simp only [List.length_cons]
    omega

theorem scanFlat_transfer :
    ∀ (l : List Char) (s : SplitState) (prev : Option Char),
      (scanFlat s prev l).current_statement = s.current_statement ++ l →
      ∀ (b : List Char) (st : List (List Char)),
        scanFlat { s with current_statement := b, statements := st } prev l =
          { scanFlat s prev l with
            current_statement := b ++ l, statements := st } := by
  intro l
  induction l with
  | nil =>
    intro s prev _ b st
    simp [scanFlat]
  | cons c t ih =>
    intro s prev hexact b st
    by_cases hsplit : c = ';' ∧ s.in_single_quote = false ∧
        s.in_double_quote = false ∧ s.in_backtick = false
    · exfalso
      have h1 : (scanFlat s prev (c :: t)).current_statement.length ≤
          t.length := by
        rw [scanFlat]
        have hc : (handleChar s prev c).current_statement = [] := by
          obtain ⟨rfl, ha, hb, hcq⟩ := hsplit
          rw [handleChar_semicolon s prev ha hb hcq]
        have hlen := scanFlat_cs_length t (handleChar s prev c) (some c)
        rw [hc] at hlen
        simpa using hlen
      rw [hexact] at h1
      simp [List.length_append] at h1
      omega
    · have ht := handleChar_transfer s prev c hsplit
      rw [scanFlat] at hexact ⊢
      have hexact' : (scanFlat (handleChar s prev c) (some c) t).current_statement
          = (handleChar s prev c).current_statement ++ t := by
        rw [ht.1, hexact]
        simp
      rw [ht.2.2 b st]
      rw [ih (handleChar s prev c) (some c) hexact' (b ++ [c]) st]
      simp
      exact ⟨rfl, rfl, rfl, rfl, rfl⟩

theorem trim_decomp (l : List Char) :
    ∃ w1 w2, (∀ c ∈ w1, isSpace c = true) ∧ (∀ c ∈ w2, isSpace c = true) ∧
      l = w1 ++ trim l ++ w2 := by
  have h2 : (l.dropWhile isSpace).rdropWhile isSpace ++
      (l.dropWhile isSpace).rtakeWhile isSpace = l.dropWhile isSpace := by
    rw [List.rdropWhile, List.rtakeWhile, ← List.reverse_append,
      List.takeWhile_append_dropWhile]
    exact List.reverse_reverse _
  refine ⟨l.takeWhile isSpace, (l.dropWhile isSpace).rtakeWhile isSpace,
    fun c hc => List.mem_takeWhile_imp hc,
    fun c hc => List.mem_rtakeWhile_imp hc, ?_⟩
  rw [trim_eq_rdropWhile, List.append_assoc, h2,
    List.takeWhile_append_dropWhile]

theorem scanFlat_trim (u : List Char) (q1 q2 q3 : Bool)
    (h : scanFlat initialState none u = ⟨q1, q2, q3, false, false, u, []⟩) :
    scanFlat initialState none (trim u) =
      ⟨q1, q2, q3, false, false, trim u, []⟩ := by
  obtain ⟨w1, w2, hw1, hw2, hdec⟩ := trim_decomp u
  have hX1 : scanFlat initialState none w1 =
      ⟨false, false, false, false, false, w1, []⟩ := by
    rw [scanFlat_ws w1 initialState none hw1]
    ext <;> simp [initialState]
  have hp1 : lastPrevOpt w1 none ≠ some '\\' :=
    lastPrevOpt_ne_backslash hw1 (by simp)
  have e1 : scanFlat initialState none u =
      { scanFlat (⟨false, false, false, false, false, w1, []⟩ : SplitState)
          (lastPrevOpt w1 none) (trim u) with
        current_statement :=
          (scanFlat (⟨false, false, false, false, false, w1, []⟩ : SplitState)
            (lastPrevOpt w1 none) (trim u)).current_statement ++ w2 } := by
    conv_lhs => rw [hdec]
    rw [scanFlat_append (w1 ++ trim u) w2, scanFlat_append w1 (trim u), hX1]
    rw [scanFlat_ws w2 _ _ hw2]
  rw [h] at e1
  have hsq := congrArg SplitState.in_single_quote e1
  have hdq := congrArg SplitState.in_double_quote e1
  have hbt := congrArg SplitState.in_backtick e1
  have hslc := congrArg SplitState.in_single_line_comment e1
  have hmlc := congrArg SplitState.in_multi_line_comment e1
  have hst := congrArg SplitState.statements e1
  have hcs := congrArg SplitState.current_statement e1
  simp only at hsq hdq hbt hslc hmlc hst hcs
  have hbuf : (scanFlat (⟨false, false, false, false, false, w1, []⟩ :
      SplitState) (lastPrevOpt w1 none) (trim u)).current_statement =
      w1 ++ trim u := by
    have h3 : (scanFlat (⟨false, false, false, false, false, w1, []⟩ :
        SplitState) (lastPrevOpt w1 none) (trim u)).current_statement ++ w2 =
        (w1 ++ trim u) ++ w2 := by
      rw [← hcs]
      exact hdec
    exact List.append_cancel_right h3
  have htr := scanFlat_transfer (trim u)
    (⟨false, false, false, false, false, w1, []⟩ : SplitState)
    (lastPrevOpt w1 none) hbuf [] []
  have hinit : ({ (⟨false, false, false, false, false, w1, []⟩ : SplitState)
      with current_statement := [], statements := [] } : SplitState) =
      initialState := rfl
  rw [hinit] at htr
  rw [scanFlat_prev_congr (trim u) initialState
    (show lastPrevOpt w1 none = some '\\' ↔ (none : Option Char) = some '\\' by
      simp [hp1])] at htr
  have hY : scanFlat (⟨false, false, false, false, false, w1, []⟩ : SplitState)
      (lastPrevOpt w1 none) (trim u) =
      ⟨q1, q2, q3, false, false, w1 ++ trim u, []⟩ := by
    ext <;> simp [← hsq, ← hdq, ← hbt, ← hslc, ← hmlc, ← hst, hbuf]
  rw [hY] at htr
  simpa using htr

theorem hasPair_tail_false {a b c : Char} {t : List Char}
    (h : hasPair a b (c :: t) = false) : hasPair a b t = false := by
  cases t with
  | nil => rfl
  | cons y t' =>
    rw [hasPair_cons_cons] at h
    exact (Bool.or_eq_false_iff.mp h).2

theorem hasPair_head_not {a b c : Char} {t : List Char}
    (h : hasPair a b (c :: t) = false) : ¬(c = a ∧ t.head? = some b) := by
  cases t with
  | nil => intro ⟨_, hb⟩; simp at hb
  | cons y t' =>
    rw [hasPair_cons_cons] at h
    intro ⟨ha, hb⟩
    simp only [List.head?_cons, Option.some.injEq] at hb
    simp [ha, hb] at h

theorem hasPair_concat (a b c : Char) :
    ∀ u : List Char,
      hasPair a b (u ++ [c]) =
        (hasPair a b u ||
          (match u.getLast? with
           | some d => decide (d = a) && decide (c = b)
           | none => false)) := by
  intro u
  induction u with
  | nil => simp [hasPair]
  | cons x u' ih =>
    cases u' with
    | nil => simp [hasPair]
    | cons y u'' =>
      show (decide (x = a) && decide (y = b) ||
          hasPair a b ((y :: u'') ++ [c])) =
        (hasPair a b (x :: y :: u'') ||
          match (x :: y :: u'').getLast? with
          | some d => decide (d = a) && decide (c = b)
          | none => false)
      rw [ih, hasPair_cons_cons, List.getLast?_cons_cons, Bool.or_assoc]

theorem scanFlat_run_inv :
    ∀ (l : List Char) (s : SplitState) (prev : Option Char),
      s.in_single_line_comment = false → s.in_multi_line_comment = false →
      hasPair '-' '-' l = false → hasPair '/' '*' l = false →
      (∀ d, prev = some d → ¬(d = '-' ∧ l.head? = some '-') ∧
        ¬(d = '/' ∧ l.head? = some '*')) →
      PrevLink s prev → BufInv s → GoodStmts s →
      GoodStmts (scanFlat s prev l) ∧ BufInv (scanFlat s prev l) ∧
        PrevLink (scanFlat s prev l) (lastPrevOpt l prev) := by
  intro l
  induction l with
  | nil => intro s prev _ _ _ _ _ hPL hB hG; exact ⟨hG, hB, hPL⟩
  | cons c t ih =>
    intro s prev h4 h5 hd hs hpc hPL hB hG
    have hd' : hasPair '-' '-' t = false := hasPair_tail_false hd
    have hs' : hasPair '/' '*' t = false := hasPair_tail_false hs
    have hpc' : ∀ d, (some c : Option Char) = some d →
        ¬(d = '-' ∧ t.head? = some '-') ∧ ¬(d = '/' ∧ t.head? = some '*') := by
      intro d hdd
      cases hdd
      exact ⟨fun hx => hasPair_head_not hd hx, fun hx => hasPair_head_not hs hx⟩
    rw [scanFlat]
    by_cases hsplit : c = ';' ∧ s.in_single_quote = false ∧
        s.in_double_quote = false ∧ s.in_backtick = false
    · obtain ⟨rfl, h1, h2, h3⟩ := hsplit
      rw [handleChar_semicolon s prev h1 h2 h3]
      have hPL' : PrevLink
          { s with current_statement := [],
                   statements :=
                     if trim s.current_statement = [] then s.statements
                     else s.statements ++ [trim s.current_statement] }
          (some ';') := Or.inr ⟨rfl, Or.inr rfl⟩
      have hB' : BufInv
          { s with current_statement := [],
                   statements :=
                     if trim s.current_statement = [] then s.statements
                     else s.statements ++ [trim s.current_statement] } := by
        refine ⟨?_, rfl, rfl⟩
        simp only
        rw [scanFlat]
        ext <;> simp [initialState, h1, h2, h3]
      have hG' : GoodStmts
          { s with current_statement := [],
                   statements :=
                     if trim s.current_statement = [] then s.statements
                     else s.statements ++ [trim s.current_statement] } := by
        intro p hp
        simp only at hp
        by_cases htr : trim s.current_statement = []
        · rw [if_pos htr] at hp
          exact hG p hp
        · rw [if_neg htr] at hp
          rcases List.mem_append.mp hp with hp | hp
          · exact hG p hp
          · simp only [List.mem_singleton] at hp
            subst hp
            obtain ⟨hB1, hB2, hB3⟩ := hB
            rw [h1, h2, h3] at hB1
            refine ⟨scanFlat_trim _ false false false hB1, ?_, ?_⟩
            · exact hasPair_infix_false (trim_infix_self _) hB2
            · exact hasPair_infix_false (trim_infix_self _) hB3
      have := ih
        { s with current_statement := [],
                 statements :=
                   if trim s.current_statement = [] then s.statements
                   else s.statements ++ [trim s.current_statement] }
        (some ';') h4 h5 hd' hs' hpc' hPL' hB' hG'
      rw [lastPrevOpt_cons]
      exact this
    · have ht := handleChar_transfer s prev c hsplit
      have hPL' : PrevLink (handleChar s prev c) (some c) := by
        left
        rw [ht.1, List.getLast?_concat]
      have hB' : BufInv (handleChar s prev c) := by
        obtain ⟨hB1, hB2, hB3⟩ := hB
        refine ⟨?_, ?_, ?_⟩
        · rw [ht.1, scanFlat_append s.current_statement [c], hB1]
          have hstep : scanFlat
              (⟨s.in_single_quote, s.in_double_quote, s.in_backtick, false,
                false, s.current_statement, []⟩ : SplitState)
              (lastPrevOpt s.current_statement none) [c] =
              handleChar
                (⟨s.in_single_quote, s.in_double_quote, s.in_backtick, false,
                  false, s.current_statement, []⟩ : SplitState)
                (lastPrevOpt s.current_statement none) c := rfl
          rw [hstep]
          have hmid : (⟨s.in_single_quote, s.in_double_quote, s.in_backtick,
              false, false, s.current_statement, []⟩ : SplitState) =
              { s with statements := [] } := by
            ext <;> simp [h4, h5]
          have hcongr : handleChar
              (⟨s.in_single_quote, s.in_double_quote, s.in_backtick, false,
                false, s.current_statement, []⟩ : SplitState)
              (lastPrevOpt s.current_statement none) c =
              handleChar { s with statements := ([] : List (List Char)) }
                prev c := by
            rw [hmid]
            apply handleChar_prev_congr
            rcases hPL with hPL | ⟨hcs, hPL⟩
            · rw [lastPrevOpt, hPL]
              cases prev with
              | none => simp
              | some d => simp
            · rw [hcs, lastPrevOpt]
              simp only [List.getLast?_nil]
              rcases hPL with rfl | rfl <;> simp
          rw [hcongr]
          have hfin := (handleChar_transfer s prev c hsplit).2.2
            s.current_statement []
          have hsrc : ({ s with
              current_statement := s.current_statement,
              statements := ([] : List (List Char)) } : SplitState) =
              { s with statements := ([] : List (List Char)) } := rfl
          rw [hsrc] at hfin
          rw [hfin]
          ext <;>
            simp [handleChar_in_single_line_comment,
              handleChar_in_multi_line_comment, h4, h5]
        · rw [ht.1, hasPair_concat]
          rw [hB2]
          simp only [Bool.false_or]
          rcases hPL with hPL | ⟨hcs, _⟩
          · rw [hPL]
            cases prev with
            | none => rfl
            | some d =>
              have := (hpc d rfl).1
              simp only [List.head?_cons, Option.some.injEq] at this
              by_cases hda : d = '-'
              · by_cases hcb : c = '-'
                · exact absurd ⟨hda, hcb⟩ this
                · simp [hcb]
              · simp [hda]
          · rw [hcs]
            rfl
        · rw [ht.1, hasPair_concat]
          rw [hB3]
          simp only [Bool.false_or]
          rcases hPL with hPL | ⟨hcs, _⟩
          · rw [hPL]
            cases prev with
            | none => rfl
            | some d =>
              have := (hpc d rfl).2
              simp only [List.head?_cons, Option.some.injEq] at this
              by_cases hda : d = '/'
              · by_cases hcb : c = '*'
                · exact absurd ⟨hda, hcb⟩ this
                · simp [hcb]
              · simp [hda]
          · rw [hcs]
            rfl
      have hG' : GoodStmts (handleChar s prev c) := by
        intro p hp
        rw [ht.2.1] at hp
        exact hG p hp
      have := ih (handleChar s prev c) (some c)
        (by rw [handleChar_in_single_line_comment, h4])
        (by rw [handleChar_in_multi_line_comment, h5])
        hd' hs' hpc' hPL' hB' hG'
      rw [lastPrevOpt_cons]
      exact this

theorem hasPair_concat_false {a b c : Char} (hcb : c ≠ b) (u : List Char)
    (h : hasPair a b u = false) : hasPair a b (u ++ [c]) = false := by
  rw [hasPair_concat, h]
  cases u.getLast? <;> simp [hcb]

theorem pieceFF_pieceBuf {p : List Char} (h : PieceFF p) : PieceBuf p := by
  unfold PieceFF at h
  unfold PieceBuf
  rw [h]
  exact ⟨rfl, rfl⟩

theorem split_eq_finishSplit_scanFlat (content : List Char)
    (h : MarkerFree content) :
    split_sql_statements content =
      finishSplit (scanFlat initialState none (content ++ ['\n'])) := by
  rw [split_sql_statements,
    processLines_eq_scanFlat (splitLines content) initialState rfl rfl ?hlines]
  case hlines =>
    intro line hline
    have hinf : line <:+: content := splitOnChar_infix_of_mem '\n' hline
    exact ⟨hasPair_infix_false hinf h.1, hasPair_infix_false hinf h.2,
      splitOnChar_mem_not_sep '\n' hline⟩
  rw [splitLines, splitOnChar_join '\n' content]

theorem scanFlat_join_aux :
    ∀ ps : List (List Char), ps ≠ [] →
      (∀ p ∈ ps, trim p = p ∧ p ≠ [] ∧ PieceBuf p) →
      (∀ p ∈ ps.dropLast, PieceFF p) →
      ∀ (stmts : List (List Char)) (prev : Option Char),
        prev = none ∨ prev = some ';' →
        finishSplit (scanFlat { initialState with statements := stmts } prev
          (joinSep ';' ps ++ ['\n'])) = stmts ++ ps := by
  intro ps
  induction ps with
  | nil => intro h; exact absurd rfl h
  | cons p ps' ih =>
    intro _ hall hdrop stmts prev hprev
    obtain ⟨htp, hne, hPB⟩ := hall p (List.mem_cons_self p ps')
    have hprevne : prev ≠ some '\\' := by
      rcases hprev with rfl | rfl <;> simp
    cases ps' with
    | nil =>
      rw [joinSep]
      have hPBn : (scanFlat initialState none (p ++ ['\n'])).current_statement
            = p ++ ['\n'] ∧
          (scanFlat initialState none (p ++ ['\n'])).statements = [] := by
        rw [scanFlat_append p ['\n']]
        have hone : scanFlat (scanFlat initialState none p)
            (lastPrevOpt p none) ['\n'] =
            handleChar (scanFlat initialState none p)
              (lastPrevOpt p none) '\n' := rfl
        rw [hone, handleChar_ws _ _ (by decide)]
        unfold PieceBuf at hPB
        simp [appendChar, hPB.1, hPB.2]
      have hmid : scanFlat { initialState with statements := stmts } none
          (p ++ ['\n']) =
          { scanFlat initialState none (p ++ ['\n']) with
            current_statement := p ++ ['\n'], statements := stmts } :=
        scanFlat_transfer (p ++ ['\n']) initialState none
          (by simpa using hPBn.1) [] stmts
      have hcongr : scanFlat { initialState with statements := stmts } prev
          (p ++ ['\n']) =
          scanFlat { initialState with statements := stmts } none
            (p ++ ['\n']) :=
        scanFlat_prev_congr _ _ (by simp [hprevne])
      rw [hcongr, hmid]
      show (if trim (p ++ ['\n']) = [] then stmts
        else stmts ++ [trim (p ++ ['\n'])]) = stmts ++ [p]
      rw [trim_append_space (by decide), htp, if_neg hne]
    | cons q ps'' =>
      rw [joinSep]
      have hassoc : (p ++ ';' :: joinSep ';' (q :: ps'')) ++ ['\n'] =
          p ++ ';' :: (joinSep ';' (q :: ps'') ++ ['\n']) := by simp
      rw [hassoc, scanFlat_append p]
      have hFF : PieceFF p := hdrop p (by
        rw [List.dropLast_cons₂]
        exact List.mem_cons_self p _)
      have hmid : scanFlat { initialState with statements := stmts } none p =
          { initialState with current_statement := p,
                              statements := stmts } := by
        have htr := scanFlat_transfer p initialState none
          (by unfold PieceBuf at hPB; simpa using hPB.1) [] stmts
        unfold PieceFF at hFF
        rw [hFF] at htr
        exact htr
      have hcongr : scanFlat { initialState with statements := stmts } prev p =
          scanFlat { initialState with statements := stmts } none p :=
        scanFlat_prev_congr _ _ (by simp [hprevne])
      rw [hcongr, hmid]
      have hstep : scanFlat
          { initialState with current_statement := p, statements := stmts }
          (lastPrevOpt p prev)
          (';' :: (joinSep ';' (q :: ps'') ++ ['\n'])) =
          scanFlat
            { initialState with statements := stmts ++ [p] } (some ';')
            (joinSep ';' (q :: ps'') ++ ['\n']) := by
        show scanFlat (handleChar
            { initialState with current_statement := p, statements := stmts }
            (lastPrevOpt p prev) ';') (some ';')
            (joinSep ';' (q :: ps'') ++ ['\n']) = _
        have hAB : handleChar
            { initialState with current_statement := p, statements := stmts }
            (lastPrevOpt p prev) ';' =
            { initialState with statements := stmts ++ [p] } := by
          rw [handleChar_semicolon _ _ rfl rfl rfl]
          ext <;> simp [initialState, htp, hne]
        rw [hAB]
      rw [hstep]
      rw [ih (by simp) (fun r hr => hall r (List.mem_cons_of_mem p hr))
        (fun r hr => hdrop r (by rw [List.dropLast_cons₂]; exact List.mem_cons_of_mem p hr))
        (stmts ++ [p]) (some ';') (Or.inr rfl)]
      simp

theorem roundtrip_markerfree (content : List Char) (h : MarkerFree content) :
    split_sql_statements (joinSep ';' (split_sql_statements content)) =
      split_sql_statements content := by
  have hfacts1 := split_statements_facts content
  have hMF : hasPair '-' '-' (content ++ ['\n']) = false :=
    hasPair_concat_false (by decide) _ h.1
  have hMS : hasPair '/' '*' (content ++ ['\n']) = false :=
    hasPair_concat_false (by decide) _ h.2
  have hrun := scanFlat_run_inv (content ++ ['\n']) initialState none rfl rfl
    hMF hMS (by intro d hd; cases hd) (Or.inl rfl) ⟨rfl, rfl, rfl⟩
    (by intro p hp; simp [initialState] at hp)
  obtain ⟨hG, hB, _⟩ := hrun
  have hsplit_eq := split_eq_finishSplit_scanFlat content h
  have hps_eq : split_sql_statements content =
      (scanFlat initialState none (content ++ ['\n'])).statements ++
        listIfNE (trim (scanFlat initialState none
          (content ++ ['\n'])).current_statement) := by
    rw [hsplit_eq, finishSplit_eq]
  have hPBall : ∀ p ∈ split_sql_statements content,
      PieceBuf p ∧ hasPair '-' '-' p = false ∧ hasPair '/' '*' p = false := by
    intro p hp
    rw [hps_eq] at hp
    rcases List.mem_append.mp hp with hp | hp
    · obtain ⟨hff, hp1, hp2⟩ := hG p hp
      exact ⟨pieceFF_pieceBuf hff, hp1, hp2⟩
    · rw [listIfNE] at hp
      by_cases hre : trim (scanFlat initialState none
          (content ++ ['\n'])).current_statement = []
      · rw [if_pos hre] at hp
        simp at hp
      · rw [if_neg hre] at hp
        simp only [List.mem_singleton] at hp
        subst hp
        obtain ⟨hB1, hB2, hB3⟩ := hB
        refine ⟨?_, hasPair_infix_false (trim_infix_self _) hB2,
          hasPair_infix_false (trim_infix_self _) hB3⟩
        have := scanFlat_trim _ _ _ _ hB1
        exact ⟨by rw [this], by rw [this]⟩
  have hdropFF : ∀ p ∈ (split_sql_statements content).dropLast, PieceFF p := by
    intro p hp
    rw [hps_eq] at hp
    by_cases hre : trim (scanFlat initialState none
        (content ++ ['\n'])).current_statement = []
    · rw [listIfNE, if_pos hre, List.append_nil] at hp
      exact (hG p ((List.dropLast_sublist _).subset hp)).1
    · rw [listIfNE, if_neg hre, List.dropLast_concat] at hp
      exact (hG p hp).1
  by_cases hpse : split_sql_statements content = []
  · rw [hpse]
    decide
  · have hJ := scanFlat_join_aux (split_sql_statements content) hpse
      (fun p hp => ⟨(hfacts1 p hp).1, (hfacts1 p hp).2, (hPBall p hp).1⟩)
      hdropFF [] none (Or.inl rfl)
    have hMFJ : MarkerFree (joinSep ';' (split_sql_statements content)) :=
      ⟨hasPair_joinSep (by decide) (by decide)
          (fun p hp => (hPBall p hp).2.1),
        hasPair_joinSep (by decide) (by decide)
          (fun p hp => (hPBall p hp).2.2)⟩
    rw [split_eq_finishSplit_scanFlat _ hMFJ]
    simpa using hJ

/-! ### Claim theorems -/

/-- Claim C1: a `;` scanned while any quote flag or comment flag is set
never terminates a statement (the scan step appends it to the buffer,
leaves the collected statements unchanged and continues); in particular
the two example scripts each split into exactly one statement with the
embedded semicolon preserved. -/
theorem claim_C1_semicolon_in_context_never_terminates :
    (∀ (s : SplitState) (prev : Option Char) (t : List Char),
        (s.in_single_quote = true ∨ s.in_double_quote = true ∨
          s.in_backtick = true ∨ s.in_single_line_comment = true ∨
          s.in_multi_line_comment = true) →
        scanStep s prev ';' t = (appendChar s ';', some ';', t) ∧
          (scanStep s prev ';' t).1.statements = s.statements) ∧
      splitSqlStatements "INSERT INTO t VALUES ('a;b')" =
        ["INSERT INTO t VALUES ('a;b')"] ∧
      splitSqlStatements "/* line1;\nline2 */\nSELECT 2;" =
        ["/* line1;\nline2 */\nSELECT 2"] ∧
      "SELECT 2".data <:+: ("/* line1;\nline2 */\nSELECT 2").data := by
  refine ⟨?_, by decide, by decide, by decide⟩
  intro s prev t h
  have hstep := scanStep_semicolon_in_context s prev t h
  exact ⟨hstep, by rw [hstep]; rfl⟩

theorem claim_C1_witness :
    ((⟨true, false, false, false, false, ['a'], []⟩ :
        SplitState).in_single_quote = true ∨
      (⟨true, false, false, false, false, ['a'], []⟩ :
        SplitState).in_double_quote = true ∨
      (⟨true, false, false, false, false, ['a'], []⟩ :
        SplitState).in_backtick = true ∨
      (⟨true, false, false, false, false, ['a'], []⟩ :
        SplitState).in_single_line_comment = true ∨
      (⟨true, false, false, false, false, ['a'], []⟩ :
        SplitState).in_multi_line_comment = true) ∧
      scanStep ⟨true, false, false, false, false, ['a'], []⟩ none ';' ['b'] =
        (appendChar ⟨true, false, false, false, false, ['a'], []⟩ ';',
          some ';', ['b']) :=
  ⟨Or.inl rfl,
    (claim_C1_semicolon_in_context_never_terminates.1 _ none ['b']
      (Or.inl rfl)).1⟩

/-- Claim C2 (corrected): the counterexample.  The script
`"a --x\n;b;"` splits into two statements, the first of which ends in a
line comment; joining them with `;` gives `"a --x;b"`, whose re-split has
only one statement, so the round-trip statement count is not preserved. -/
theorem claim_C2_counterexample :
    split_sql_statements ("a --x\n;b;".data) = ["a --x".data, "b".data] ∧
      joinSep ';' ["a --x".data, "b".data] = ("a --x;b").data ∧
      split_sql_statements (("a --x;b").data) = [("a --x;b").data] ∧
      (split_sql_statements
          (joinSep ';' (split_sql_statements ("a --x\n;b;".data)))).length ≠
        (split_sql_statements ("a --x\n;b;".data)).length := by
  refine ⟨by decide, by decide, by decide, by decide⟩

/-- Claim C2 (amended): for every script containing no comment markers
(no `--` and no `/*` occurrence; quotes and quoted semicolons are
allowed), joining all statements returned by split with `;` separators
and splitting the result again yields the same number of statements — in
fact the identical statement list. -/
theorem claim_C2_roundtrip_markerfree_scripts :
    ∀ content : List Char, MarkerFree content →
      (split_sql_statements (joinSep ';' (split_sql_statements content))).length
          = (split_sql_statements content).length ∧
        split_sql_statements (joinSep ';' (split_sql_statements content)) =
          split_sql_statements content := by
  intro content h
  have heq := roundtrip_markerfree content h
  exact ⟨by rw [heq], heq⟩

theorem claim_C2_witness :
    MarkerFree ("INSERT INTO t VALUES ('a;b'); SELECT 2;".data) ∧
      (split_sql_statements (joinSep ';'
          (split_sql_statements
            ("INSERT INTO t VALUES ('a;b'); SELECT 2;".data)))).length
        = (split_sql_statements
            ("INSERT INTO t VALUES ('a;b'); SELECT 2;".data)).length :=
  ⟨by decide,
    (claim_C2_roundtrip_markerfree_scripts
      ("INSERT INTO t VALUES ('a;b'); SELECT 2;".data) (by decide)).1⟩

/-- Claim C3 (corrected): the counterexample.  A delimited segment
consisting solely of a line comment is emitted as a statement: splitting
`"-- c\n;SELECT 1;"` returns the comment-only statement `"-- c"`. -/
theorem claim_C3_counterexample :
    splitSqlStatements "-- c\n;SELECT 1;" = ["-- c", "SELECT 1"] ∧
      isOnlyWhitespaceAndComments ("-- c".data) = true ∧
      "-- c".data ∈ split_sql_statements ("-- c\n;SELECT 1;".data) := by
  refine ⟨by decide, by decide, by decide⟩

/-- Claim C3 (amended): a delimited segment whose content is only
whitespace contributes no entry — every statement in the returned
sequence is non-empty and trimmed.  (Segments consisting of comments are
emitted, comment text included, as the counterexample shows.) -/
theorem claim_C3_no_whitespace_only_statements :
    ∀ content : List Char, ∀ st ∈ split_sql_statements content,
      trim st = st ∧ st ≠ [] :=
  split_statements_facts

theorem claim_C3_witness :
    "a".data ∈ split_sql_statements ("  a ;   \n ; ".data) ∧
      (trim ("a".data) = "a".data ∧ "a".data ≠ []) :=
  ⟨by decide,
    claim_C3_no_whitespace_only_statements ("  a ;   \n ; ".data) ("a".data)
      (by decide)⟩

/-- Claim C4: on scripts with no quote characters and no comment markers
the stateful scanner coincides with the naive strategy (split on `;`,
trim, drop empties, order preserved). -/
theorem claim_C4_naive_refinement :
    ∀ content : List Char, PlainOk content →
      split_sql_statements content = naiveSplit content :=
  split_eq_naive_of_plain

theorem claim_C4_witness :
    PlainOk ("a = 1;\n b ;; c".data) ∧
      split_sql_statements ("a = 1;\n b ;; c".data) =
        naiveSplit ("a = 1;\n b ;; c".data) ∧
      naiveSplit ("a = 1;\n b ;; c".data) =
        ["a = 1".data, "b".data, "c".data] :=
  ⟨by decide, claim_C4_naive_refinement ("a = 1;\n b ;; c".data) (by decide),
    by decide⟩

/-- Claim C5: the `ScanState` flag invariant — at most one quote flag, at
most one comment flag, never a quote flag together with a comment flag —
holds initially and is preserved by every scan step and by the
end-of-line reset; `scanLine` advances by exactly these scan steps. -/
theorem claim_C5_flag_invariant :
    goodFlags initialState ∧
      (∀ (s : SplitState) (prev : Option Char) (c : Char) (t : List Char),
        goodFlags s → goodFlags (scanStep s prev c t).1) ∧
      (∀ s : SplitState, goodFlags s → goodFlags (endOfLine s)) ∧
      (∀ (s : SplitState) (prev : Option Char) (c : Char) (t : List Char),
        scanLine s prev (c :: t) =
          scanLine (scanStep s prev c t).1 (scanStep s prev c t).2.1
            (scanStep s prev c t).2.2) :=
  ⟨goodFlags_initialState, goodFlags_scanStep, goodFlags_endOfLine,
    scanLine_cons⟩

theorem claim_C5_witness :
    goodFlags (⟨false, false, true, false, false, [], []⟩ : SplitState) ∧
      goodFlags (scanStep ⟨false, false, true, false, false, [], []⟩
        none '\'' ['x']).1 :=
  ⟨by decide,
    claim_C5_flag_invariant.2.1 ⟨false, false, true, false, false, [], []⟩
      none '\'' ['x'] (by decide)⟩

/-- Claim C6: the splitter is total (it is a Lean function, defined on
every input, including unterminated quotes and comments), and whenever
the text remaining after the last statement-terminating semicolon is
non-empty after trimming it is emitted as the final statement of the
output; the two example scripts end inside an unterminated quote and an
unterminated block comment respectively. -/
theorem claim_C6_totality_trailing_remainder :
    (∀ content : List Char,
        trim (processLines initialState (splitLines content)).current_statement
            ≠ [] →
        split_sql_statements content =
          (processLines initialState (splitLines content)).statements ++
            [trim (processLines initialState
              (splitLines content)).current_statement] ∧
          (split_sql_statements content).getLast? =
            some (trim (processLines initialState
              (splitLines content)).current_statement)) ∧
      splitSqlStatements "SELECT 'a;b" = ["SELECT 'a;b"] ∧
      splitSqlStatements "x;/* open" = ["x", "/* open"] := by
  refine ⟨?_, by decide, by decide⟩
  intro content h
  rw [split_sql_statements, finishSplit, if_neg h]
  exact ⟨rfl, by simp⟩

theorem claim_C6_witness :
    trim (processLines initialState
        (splitLines ("x".data))).current_statement ≠ [] ∧
      split_sql_statements ("x".data) =
        (processLines initialState (splitLines ("x".data))).statements ++
          [trim (processLines initialState
            (splitLines ("x".data))).current_statement] ∧
      (split_sql_statements ("x".data)).getLast? =
        some (trim (processLines initialState
          (splitLines ("x".data))).current_statement) :=
  ⟨by decide,
    (claim_C6_totality_trailing_remainder.1 ("x".data) (by decide)).1,
    (claim_C6_totality_trailing_remainder.1 ("x".data) (by decide)).2⟩

/-- Claim C7: statements are executed in order as one transaction with
autocommit disabled: on full success the connection sees every statement
executed in order followed by exactly one commit; on a failing statement
the connection sees the statements up to and including the first failure,
then rollback, no commit, and the remaining statements are never
executed. -/
theorem claim_C7_transaction_per_file :
    connect_config.autocommit = false ∧
      ∀ (execOk : String → Bool) (stmts : List String),
        ((∀ st ∈ stmts, execOk st = true) →
          execute_statements execOk stmts =
            (stmts.map DbAction.exec ++ [DbAction.commit], true) ∧
          (execute_statements execOk stmts).1.count DbAction.commit = 1 ∧
          executedStmts (execute_statements execOk stmts).1 = stmts) ∧
        ((∃ st ∈ stmts, execOk st = false) →
          (execute_statements execOk stmts).2 = false ∧
          DbAction.commit ∉ (execute_statements execOk stmts).1 ∧
          DbAction.rollback ∈ (execute_statements execOk stmts).1 ∧
          executedStmts (execute_statements execOk stmts).1 =
            stmts.take ((stmts.takeWhile execOk).length + 1)) := by
  refine ⟨rfl, ?_⟩
  intro execOk stmts
  constructor
  · intro h
    have heq := execute_statements_ok execOk stmts h
    refine ⟨heq, ?_, ?_⟩
    · rw [heq]
      simp only [List.count_append]
      rw [List.count_eq_zero.mpr (by
        intro hmem
        obtain ⟨st, _, hst⟩ := List.mem_map.mp hmem
        cases hst)]
      rfl
    · rw [heq]
      simp only
      rw [executedStmts_append, executedStmts_map_exec]
      simp [executedStmts]
  · intro h
    have heq := execute_statements_fail execOk stmts h
    refine ⟨by rw [heq], ?_, ?_, ?_⟩
    · rw [heq]
      intro hmem
      simp only at hmem
      rcases List.mem_append.mp hmem with hmem | hmem
      · obtain ⟨st, _, hst⟩ := List.mem_map.mp hmem
        cases hst
      · simp at hmem
    · rw [heq]
      simp
    · rw [heq]
      simp only
      rw [executedStmts_append, executedStmts_map_exec]
      simp [executedStmts]

theorem claim_C7_witness :
    (∀ st ∈ ["A", "B"], (fun st : String => decide (st ≠ "BAD")) st = true) ∧
      execute_statements (fun st : String => decide (st ≠ "BAD")) ["A", "B"] =
        ([DbAction.exec "A", DbAction.exec "B", DbAction.commit], true) ∧
      (∃ st ∈ ["A", "BAD", "C"],
        (fun st : String => decide (st ≠ "BAD")) st = false) ∧
      DbAction.commit ∉
        (execute_statements (fun st : String => decide (st ≠ "BAD"))
          ["A", "BAD", "C"]).1 ∧
      executedStmts (execute_statements (fun st : String => decide (st ≠ "BAD"))
        ["A", "BAD", "C"]).1 = ["A", "BAD"] := by
  refine ⟨by decide, ?_, by decide, ?_, ?_⟩
  · exact ((claim_C7_transaction_per_file.2 _ ["A", "B"]).1 (by decide)).1
  · exact ((claim_C7_transaction_per_file.2 _ ["A", "BAD", "C"]).2
      (by decide)).2.1
  · exact ((claim_C7_transaction_per_file.2 _ ["A", "BAD", "C"]).2
      (by decide)).2.2.2

/-- Claim C8: folder processing executes the discovered files in sorted
path order, every file of the folder is attempted with an outcome
computed from that file alone, and for two files `f1 < f2` a failure of
`f1` does not prevent `f2` from being executed. -/
theorem claim_C8_sorted_isolated_folder_processing :
    ∀ (execOk : String → Bool) (files : List (String × String)),
      ((process_folder execOk files).map Prod.fst).Pairwise
          (fun a b => a ≤ b) ∧
        (∀ pf ∈ files,
          (pf.1, execute_sql_file execOk pf.2) ∈ process_folder execOk files) ∧
        (∀ p1 c1 p2 c2, p1 < p2 →
          process_folder execOk [(p1, c1), (p2, c2)] =
            [(p1, execute_sql_file execOk c1),
              (p2, execute_sql_file execOk c2)]) ∧
        (∀ p1 c1 p2 c2, p1 < p2 →
          (execute_sql_file execOk c1).2 = false →
          (p2, execute_sql_file execOk c2) ∈
            process_folder execOk [(p1, c1), (p2, c2)]) := by
  intro execOk files
  refine ⟨process_folder_sorted execOk files,
    fun pf h => process_folder_mem execOk files h,
    fun p1 c1 p2 c2 h => process_folder_two execOk p1 p2 c1 c2 h,
    fun p1 c1 p2 c2 h _ => ?_⟩
  rw [process_folder_two execOk p1 p2 c1 c2 h]
  exact List.mem_cons_of_mem _ (List.mem_singleton.mpr rfl)

theorem claim_C8_witness :
    (("b.sql", "x;") : String × String) ∈
        ([("b.sql", "x;"), ("a.sql", "y;")] : List (String × String)) ∧
      ("b.sql", execute_sql_file (fun _ => false) "x;") ∈
        process_folder (fun _ => false) [("b.sql", "x;"), ("a.sql", "y;")] :=
  ⟨by decide,
    (claim_C8_sorted_isolated_folder_processing (fun _ => false)
      [("b.sql", "x;"), ("a.sql", "y;")]).2.1 ("b.sql", "x;") (by decide)⟩

/-- Claim C9: the file-appearance wait always terminates with at most 15
polls inside the 30-unit window at 2-unit intervals; a file appearing at
elapsed time 10 is discovered at time 10 and the folder is processed with
the files seen then; when no file ever appears the wait returns `none`
and folder processing returns normally with the timeout outcome. -/
theorem claim_C9_wait_loop_bounded :
    (∀ hasFiles : Nat → Bool, wait_polls hasFiles max_wait 0 ≤ 15) ∧
      (∀ (hasFiles : Nat → Bool) (t : Nat),
        wait_loop hasFiles max_wait 0 = some t → t < max_wait ∧ t % 2 = 0) ∧
      (∀ hasFiles : Nat → Bool, (∀ u, hasFiles u = decide (10 ≤ u)) →
        wait_loop hasFiles max_wait 0 = some 10 ∧
          ∀ (filesAt : Nat → List (String × String)) (execOk : String → Bool),
            process_folder_wait hasFiles filesAt execOk =
              some (process_folder execOk (filesAt 10))) ∧
      (∀ hasFiles : Nat → Bool, (∀ u, hasFiles u = false) →
        wait_loop hasFiles max_wait 0 = none ∧
          ∀ (filesAt : Nat → List (String × String)) (execOk : String → Bool),
            process_folder_wait hasFiles filesAt execOk = none) := by
  refine ⟨?_, ?_, ?_, ?_⟩
  · intro hasFiles
    have h := wait_polls_le hasFiles max_wait 0
    simpa [max_wait] using h
  · intro hasFiles t h
    have hb := wait_loop_some_bounds hasFiles max_wait 0 t h
    exact ⟨hb.2.1, by have := hb.2.2; omega⟩
  · intro hasFiles h10
    have hw := wait_loop_appears_at_ten hasFiles h10
    refine ⟨hw, ?_⟩
    intro filesAt execOk
    rw [process_folder_wait, hw]
  · intro hasFiles hnever
    have hw := wait_loop_none_of_never hasFiles hnever max_wait 0
    refine ⟨hw, ?_⟩
    intro filesAt execOk
    rw [process_folder_wait, hw]

theorem claim_C9_witness :
    (∀ u, (fun u => decide (10 ≤ u)) u = decide (10 ≤ u)) ∧
      wait_loop (fun u => decide (10 ≤ u)) max_wait 0 = some 10 :=
  ⟨fun _ => rfl,
    (claim_C9_wait_loop_bounded.2.2.1 (fun u => decide (10 ≤ u))
      (fun _ => rfl)).1⟩

/-- Claim C10: a single- or double-quote whose immediately preceding
character is a backslash never toggles quote state — also when that
backslash is itself escaped, since the scanner inspects only the single
preceding character; for `"SELECT 'a\\';"` the scanner stays in
single-quote state past the closing quote and the semicolon is kept
inside the single returned statement. -/
theorem claim_C10_backslash_escape :
    (∀ (s : SplitState) (c : Char), (c = '\'' ∨ c = '"') →
        handleChar s (some '\\') c = appendChar s c) ∧
      splitSqlStatements "SELECT 'a\\\\';" = ["SELECT 'a\\\\';"] ∧
      (processLines initialState
        (splitLines ("SELECT 'a\\\\';".data))).in_single_quote = true ∧
      ';' ∈ ("SELECT 'a\\\\';".data) := by
  refine ⟨?_, by decide, by decide, by decide⟩
  intro s c h
  exact handleChar_backslash_escape s c h

theorem claim_C10_witness :
    (('\'' : Char) = '\'' ∨ ('\'' : Char) = '"') ∧
      handleChar initialState (some '\\') '\'' = appendChar initialState '\'' :=
  ⟨Or.inl rfl, claim_C10_backslash_escape.1 initialState '\'' (Or.inl rfl)⟩
